import Mathlib

set_option maxRecDepth 100000

/-!
Verification of the distance-based downsampling tool
(`2_distance_downsample.py`, hierarchical-clustering downsampling of Y-chromosome
sequences).  The Python source is shallowly embedded below: pure functions of the
script become Lean functions, NumPy/SciPy library calls are modelled by explicit
executable definitions (floating-point values are represented as rationals plus
an explicit NaN marker; the script performs no operation whose result depends on
rounding, so rational arithmetic is an exact model of the values it manipulates).
-/

/-- Model of a floating-point matrix entry: either NaN or a real (rational) value.
The script's inputs are decimal literals, and every arithmetic step it performs
(sums, averages, comparisons) is exact on rationals. -/
inductive DVal where
  | nan : DVal
  | val : ℚ → DVal
deriving DecidableEq

/-- Model of `np.isnan` on one entry. -/
def DVal.isNaN : DVal → Bool
  | .nan => true
  | .val _ => false

/-- Extract the rational value of an entry; only used on paths where a NaN check
has already ruled `.nan` out (the `0` default is never reached on those paths). -/
def DVal.toQ : DVal → ℚ
  | .nan => 0
  | .val q => q

/-- IEEE addition as used by `np.sum`: NaN is absorbing. -/
def dadd : DVal → DVal → DVal
  | .nan, _ => .nan
  | .val _, .nan => .nan
  | .val a, .val b => .val (a + b)

/-- IEEE `>=` comparison: any comparison involving NaN is false. -/
def dge : DVal → DVal → Bool
  | .val a, .val b => decide (b ≤ a)
  | _, _ => false

/-- A full square distance matrix as handed to `main` by `read_mldist`
(entry (i,j) of the n-by-n array; arguments beyond the size are irrelevant). -/
abbrev Mat : Type := ℕ → ℕ → DVal

/-- Loop of `np.argmin` on a float vector (NumPy semantics): running minimum via
the negated comparison `not (v >= current)`, so a NaN encountered becomes the
current minimum and the scan stops updating (NumPy breaks at the first NaN). -/
def argminGo : List DVal → DVal → ℕ → ℕ → ℕ
  | [], _, best, _ => best
  | v :: rest, cur, best, pos =>
      if dge v cur then argminGo rest cur best (pos + 1)
      else if v.isNaN then pos
      else argminGo rest v pos (pos + 1)

/-- Model of `np.argmin`: index of the first minimum (first NaN if any). -/
def argminD : List DVal → ℕ
  | [] => 0
  | v :: rest => if v.isNaN then 0 else argminGo rest v 0 1

/-- Row sum of the cluster submatrix, `sub.sum(axis=1)` for row `i`: the sum of
`M i j` over the members `j` of the cluster (including `j = i`, i.e. the
diagonal entry, exactly as `full_matrix[np.ix_(indices, indices)].sum(axis=1)`
does). -/
def rowSumD (M : Mat) (mem : List ℕ) (i : ℕ) : DVal :=
  mem.foldl (fun acc j => dadd acc (M i j)) (DVal.val 0)

/-- Embedding of `medoid_index(full_matrix, indices)`: the member whose row sum
over the cluster submatrix is minimal (`np.argmin` tie-break: first index);
a single-member cluster returns its only member. -/
def medoidIndex (M : Mat) (mem : List ℕ) : ℕ :=
  match mem with
  | [x] => x
  | l => l.getD (argminD (l.map (rowSumD M l))) 0

/-- Lance–Williams merge-distance update for the rational linkage strategies of
`scipy.cluster.hierarchy.linkage` offered by the script's `--linkage` flag
(`single`, `complete`, `average`, `weighted`; the remaining choice `centroid`
needs real square roots and is not modelled — the script's default, used in all
claims, is `average`). -/
inductive LinkMethod where
  | single : LinkMethod
  | complete : LinkMethod
  | average : LinkMethod
  | weighted : LinkMethod
deriving DecidableEq

/-- Merge-distance formula of each linkage strategy (spec §4.3). -/
def lwUpdate : LinkMethod → ℕ → ℕ → ℚ → ℚ → ℚ
  | .single, _, _, dax, dbx => min dax dbx
  | .complete, _, _, dax, dbx => max dax dbx
  | .average, sa, sb, dax, dbx => ((sa : ℚ) * dax + (sb : ℚ) * dbx) / ((sa : ℚ) + (sb : ℚ))
  | .weighted, _, _, dax, dbx => (dax + dbx) / 2

/-- Ordered pairs (by position) of the active-cluster list. -/
def pairsOf : List (ℕ × ℕ) → List ((ℕ × ℕ) × (ℕ × ℕ))
  | [] => []
  | p :: rest => rest.map (fun q => (p, q)) ++ pairsOf rest

/-- Scan for the closest pair of active clusters (first pair wins ties). -/
def minPairGo (d : ℕ → ℕ → ℚ) :
    List ((ℕ × ℕ) × (ℕ × ℕ)) → ((ℕ × ℕ) × (ℕ × ℕ)) → ℚ → ((ℕ × ℕ) × (ℕ × ℕ)) × ℚ
  | [], best, bh => (best, bh)
  | pq :: rest, best, bh =>
      let h := d pq.1.1 pq.2.1
      if h < bh then minPairGo d rest pq h else minPairGo d rest best bh

/-- Closest pair of the active-cluster list under the current distance. -/
def minPairOf (d : ℕ → ℕ → ℚ) (active : List (ℕ × ℕ)) :
    Option (((ℕ × ℕ) × (ℕ × ℕ)) × ℚ) :=
  match pairsOf active with
  | [] => none
  | pq :: rest => some (minPairGo d rest pq (d pq.1.1 pq.2.1))

/-- Agglomerative clustering loop: repeatedly merge the closest pair of active
clusters, recording merges in SciPy's linkage-matrix convention (children ids,
merge height; new cluster gets id `next`).  `active` holds (cluster id, size).
This is the greedy closest-pair formulation; for the reducible strategies it
produces the same merge list as SciPy's nearest-neighbour-chain implementation
whenever no two candidate merge distances tie. -/
def linkGo (meth : LinkMethod) : ℕ → List (ℕ × ℕ) → (ℕ → ℕ → ℚ) → ℕ → List (ℕ × ℕ × ℚ)
  | 0, _, _, _ => []
  | fuel + 1, active, d, next =>
      match minPairOf d active with
      | none => []
      | some ((a, b), h) =>
          let rest := active.filter (fun p => decide (p.1 ≠ a.1 ∧ p.1 ≠ b.1))
          let d' : ℕ → ℕ → ℚ := fun x y =>
            if x = next then lwUpdate meth a.2 b.2 (d a.1 y) (d b.1 y)
            else if y = next then lwUpdate meth a.2 b.2 (d a.1 x) (d b.1 x)
            else d x y
          (a.1, b.1, h) :: linkGo meth fuel (rest ++ [(next, a.2 + b.2)]) d' (next + 1)

/-- Embedding of `Z = linkage(condensed, method=...)`: leaves `0..n-1` of size 1,
fresh cluster ids from `n` upward, `n - 1` merges. -/
def linkage (meth : LinkMethod) (n : ℕ) (d : ℕ → ℕ → ℚ) : List (ℕ × ℕ × ℚ) :=
  linkGo meth n ((List.range n).map (fun i => (i, 1))) d n

/-- Maximum merge height inside the subtree of one linkage row (`s`), given the
already-computed values `acc` for the preceding rows: a child below `n` is a
leaf and contributes nothing beyond the row's own height. -/
def smVal (n : ℕ) (acc : List ℚ) (s : ℕ × ℕ × ℚ) : ℚ :=
  let h := s.2.2
  let la := if s.1 < n then h else acc.getD (s.1 - n) h
  let lb := if s.2.1 < n then h else acc.getD (s.2.1 - n) h
  max h (max la lb)

/-- Accumulating pass computing the subtree maxima of every linkage row. -/
def smAux (n : ℕ) : List (ℕ × ℕ × ℚ) → List ℚ → List ℚ
  | [], acc => acc
  | s :: rest, acc => smAux n rest (acc ++ [smVal n acc s])

/-- Subtree-maximum heights of all rows of a linkage matrix (the `max_dists`
array that `scipy.cluster.hierarchy.fcluster` computes for
`criterion='distance'`). -/
def smOf (n : ℕ) (Z : List (ℕ × ℕ × ℚ)) : List ℚ := smAux n Z []

/-- Relabelling performed by one applied merge: everything currently labelled
with either child id moves to the fresh id `n + k`. -/
def mergeL (n k a b : ℕ) (L : ℕ → ℕ) : ℕ → ℕ :=
  fun i => if L i = a ∨ L i = b then n + k else L i

/-- Walk the linkage rows (tracking the subtree maxima in `acc`, so that
`acc.length` is the index of the current row) and apply every merge whose
subtree maximum is at most the threshold. -/
def cutGo (n : ℕ) (t : ℚ) : List (ℕ × ℕ × ℚ) → List ℚ → (ℕ → ℕ) → (ℕ → ℕ)
  | [], _, L => L
  | s :: rest, acc, L =>
      cutGo n t rest (acc ++ [smVal n acc s])
        (if smVal n acc s ≤ t then mergeL n acc.length s.1 s.2.1 L else L)

/-- Embedding of `fcluster(Z, t=threshold, criterion='distance')`: the flat
clusters are the connected components formed by the merges whose subtree
maximum height is at most `t`.  Labels are dendrogram node ids (a bijective
relabelling of SciPy's `1..K`; every claim below is invariant under relabelling,
and record sorting is by the labels actually produced, matching the script's
`sort` on the `fcluster` output). -/
def cutLabels (n : ℕ) (Z : List (ℕ × ℕ × ℚ)) (t : ℚ) : ℕ → ℕ := cutGo n t Z [] id

/-- Clusters as the script builds them: a `defaultdict(list)` filled by
enumerating indices `0..n-1`, i.e. one entry per distinct label in order of
first appearance, whose member list is in ascending index order. -/
def clustersOf (n : ℕ) (L : ℕ → ℕ) : List (ℕ × List ℕ) :=
  (((List.range n).map L).dedup).map
    (fun c => (c, (List.range n).filter (fun i => decide (L i = c))))

/-- Per-cluster retention rule of `select_at_threshold`: all required members if
any, otherwise the single medoid. -/
def keptOf (M : Mat) (required : ℕ → Bool) (mem : List ℕ) : List ℕ :=
  let req := mem.filter required
  if req.isEmpty then [medoidIndex M mem] else req

/-- One row of the cluster report (`cluster_id`, `size`, `required_count`,
`selected_ids`). -/
structure ClusterRec where
  clusterId : ℕ
  size : ℕ
  requiredCount : ℕ
  selectedIds : List String
deriving DecidableEq

/-- Record ordering used by `cluster_records.sort(key=cluster_id)`. -/
def recLE (x y : ClusterRec) : Prop := x.clusterId ≤ y.clusterId

instance : DecidableRel recLE :=
  fun x y => inferInstanceAs (Decidable (x.clusterId ≤ y.clusterId))

instance : IsTotal ClusterRec recLE := ⟨fun x y => Nat.le_total x.clusterId y.clusterId⟩

instance : IsTrans ClusterRec recLE := ⟨fun _ _ _ h1 h2 => Nat.le_trans h1 h2⟩

/-- Concatenation of the per-cluster retained index lists (the `selected` list
that `select_at_threshold` accumulates with `selected.extend(kept)`). -/
def keptAll (n : ℕ) (L : ℕ → ℕ) (M : Mat) (required : ℕ → Bool) : List ℕ :=
  ((clustersOf n L).map (fun p => keptOf M required p.2)).flatten

/-- De-duplicated selection reordered to ascending input order
(`[idx for idx in range(len(names)) if idx in selected_unique]`; membership in
the set `selected_unique` is membership in the accumulated `selected` list). -/
def selIndices (n : ℕ) (L : ℕ → ℕ) (M : Mat) (required : ℕ → Bool) : List ℕ :=
  (List.range n).filter (fun i => (keptAll n L M required).contains i)

/-- Per-cluster records before sorting, in first-appearance cluster order. -/
def recsOf (names : List String) (n : ℕ) (L : ℕ → ℕ) (M : Mat) (required : ℕ → Bool) :
    List ClusterRec :=
  (clustersOf n L).map (fun p =>
    ClusterRec.mk p.1 p.2.length (p.2.filter required).length
      ((keptOf M required p.2).map (fun i => names.getD i "")))

/-- Embedding of `select_at_threshold`: cut the dendrogram, retain per cluster
(required members or medoid), de-duplicate and reorder the retained indices to
ascending input order, and sort the per-cluster records by cluster id.  The
`required_indices` and `target` parameters of the Python function are unused by
it and omitted. -/
def selectAtThreshold (Z : List (ℕ × ℕ × ℚ)) (t : ℚ) (names : List String) (M : Mat)
    (required : ℕ → Bool) : List ℕ × List ClusterRec :=
  let n := names.length
  let L := cutLabels n Z t
  (selIndices n L M required, List.insertionSort recLE (recsOf names n L M required))

/-- Condensed form of the square matrix, `squareform(dist_matrix, checks=False)`:
the strict upper triangle read row by row; no symmetry or zero-diagonal
validation is performed. -/
def condensedList (M : Mat) (n : ℕ) : List DVal :=
  ((List.range n).map (fun i =>
      ((List.range n).filter (fun j => decide (i < j))).map (fun j => M i j))).flatten

/-- One entry of the mask `vec > 0`: the value when strictly positive (a NaN
compares false against 0 and is dropped). -/
def posOf : DVal → Option ℚ
  | .nan => none
  | .val q => if 0 < q then some q else none

/-- Strictly positive entries of a float vector, `vec[vec > 0]`. -/
def posVals (l : List DVal) : List ℚ := l.filterMap posOf

/-- Model of `np.unique`: distinct values in ascending order. -/
def sortedUnique (l : List ℚ) : List ℚ := List.insertionSort (· ≤ ·) l.dedup

/-- Model of `np.max` on the (nonempty, nonnegative) candidate array. -/
def qmax (l : List ℚ) : ℚ := l.foldl max 0

/-- Candidate thresholds exactly as `main` builds them: the sorted distinct
strictly positive condensed distances (`[0.0]` if none), followed by one
sentinel `min(max positive distance, max_threshold) + 1e-6` (the `min` with the
caller's `--max-threshold` when supplied). -/
def candidateList (M : Mat) (n : ℕ) (mt : Option ℚ) : List ℚ :=
  let pos := sortedUnique (posVals (condensedList M n))
  let pos' := if pos = [] then [(0 : ℚ)] else pos
  let mx := qmax pos'
  let mx' := match mt with
    | none => mx
    | some m => min mx m
  pos' ++ [mx' + 1 / 1000000]

/-- Threshold-search loop: the first candidate whose selection size is within
the target. -/
def firstFeasible (f : ℚ → ℕ) (target : ℤ) : List ℚ → Option ℚ
  | [] => none
  | c :: rest => if (f c : ℤ) ≤ target then some c else firstFeasible f target rest

/-- Chosen threshold of `main`: the first feasible candidate, or (fallback
branch) the last candidate regardless of its selection size. -/
def chosenThreshold (f : ℚ → ℕ) (target : ℤ) (cands : List ℚ) : ℚ :=
  match firstFeasible f target cands with
  | some c => c
  | none => (cands.getLast?).getD 0

/-- Embedding of `base_id`: the name up to (excluding) its first underscore. -/
def baseId (s : String) : String := String.mk (s.toList.takeWhile (fun c => c ≠ '_'))

/-- Lookup in the metadata mapping (a Python dict modelled as an association
list with distinct keys; first match). -/
def lookupA : List (String × String) → String → Option String
  | [], _ => none
  | p :: rest, s => if p.1 = s then some p.2 else lookupA rest s

/-- Required mask of `main`: index `i` is required when the base id of its name
is mapped to the priority label (`base_id(name) in priority_ids`). -/
def requiredB (names : List String) (meta : List (String × String)) (p : String) : ℕ → Bool :=
  fun i => decide (lookupA meta (baseId (names.getD i "")) = some p)

/-- Number of required indices (`required_indices.size`). -/
def reqCount (names : List String) (meta : List (String × String)) (p : String) : ℕ :=
  ((List.range names.length).filter (requiredB names meta p)).length

/-- Fatal error taxonomy of the core run: the feasibility failure raised by
`ensure_priority_subset` and the NaN failure raised after `squareform`. -/
inductive MainError where
  | infeasible : MainError
  | dataError : MainError
deriving DecidableEq

/-- Result of a successful run: chosen threshold, retained indices, cluster
report. -/
structure MainOut where
  threshold : ℚ
  selection : List ℕ
  records : List ClusterRec
deriving DecidableEq

/-- Symmetric distance view used to build the clustering input: SciPy's
`linkage` reads the condensed vector, i.e. only strict upper-triangle entries
(`toQ` is exact here because the NaN check on the condensed vector has already
passed on every path that reaches `linkage`). -/
def symQ (M : Mat) : ℕ → ℕ → ℚ := fun i j => (M (min i j) (max i j)).toQ

/-- The work done by `main` after both fail-fast checks have passed: one
linkage construction, the threshold scan over the candidate list with fallback
to the last candidate, and the winning trial's selection and records. -/
def runBody (names : List String) (M : Mat) (meta : List (String × String)) (p : String)
    (target : ℤ) (meth : LinkMethod) (mt : Option ℚ) : MainOut :=
  let n := names.length
  let required := requiredB names meta p
  let Z := linkage meth n (symQ M)
  let cands := candidateList M n mt
  let f : ℚ → ℕ := fun c => (selectAtThreshold Z c names M required).1.length
  let t := chosenThreshold f target cands
  let res := selectAtThreshold Z t names M required
  ⟨t, res.1, res.2⟩

/-- Embedding of the core of `main` (after argument parsing and file reading):
the priority-feasibility check, the condensed-matrix NaN check, then the
clustering and threshold search of `runBody`.  Outputs of the winning trial are
returned; file writing and printing are outside the core. -/
def runMain (names : List String) (M : Mat) (meta : List (String × String)) (p : String)
    (target : ℤ) (meth : LinkMethod) (mt : Option ℚ) : Except MainError MainOut :=
  if (reqCount names meta p : ℤ) > target then .error .infeasible
  else
    if (condensedList M names.length).any DVal.isNaN then .error .dataError
    else .ok (runBody names M meta p target meth mt)

/-- Selection size of a run result (0 for a failed run). -/
def selLen (r : Except MainError MainOut) : ℕ :=
  match r with
  | .ok o => o.selection.length
  | .error _ => 0

/-- Selection of a run result (empty for a failed run). -/
def selOf (r : Except MainError MainOut) : List ℕ :=
  match r with
  | .ok o => o.selection
  | .error _ => []

/-- Whitespace recognised by Python's `str.split()` / `str.strip()`. -/
def pyIsSpace (c : Char) : Bool :=
  c == ' ' || c == '\t' || c == '\n' || c == '\r' || c == '\x0b' || c == '\x0c'

/-- Model of Python `str.strip()` on a character list. -/
def pystrip (s : List Char) : List Char :=
  ((s.dropWhile pyIsSpace).reverse.dropWhile pyIsSpace).reverse

/-- Worker for `str.split()`: split on whitespace runs, no empty fields. -/
def pysplitGo : List Char → List Char → List (List Char)
  | [], cur => if cur.isEmpty then [] else [cur.reverse]
  | c :: rest, cur =>
      if pyIsSpace c then
        if cur.isEmpty then pysplitGo rest [] else cur.reverse :: pysplitGo rest []
      else pysplitGo rest (c :: cur)

/-- Model of Python `str.split()` with no arguments. -/
def pysplit (s : List Char) : List (List Char) := pysplitGo s []

/-- Fields of one metadata line after stripping (`line.strip().split()`). -/
def tokensOf (line : String) : List String := (pysplit (pystrip line.toList)).map String.mk

/-- Python dict assignment `mapping[k] = v` on the association-list model:
overwrite in place if the key exists, else append. -/
def upsertA (m : List (String × String)) (k v : String) : List (String × String) :=
  if (m.map Prod.fst).contains k then m.map (fun p => if p.1 = k then (k, v) else p)
  else m ++ [(k, v)]

/-- One iteration of the `read_meta` loop: skip blank lines and lines with
fewer than two whitespace-separated fields, otherwise record fields 0 and 1. -/
def metaStep (m : List (String × String)) (line : String) : List (String × String) :=
  if (pystrip line.toList).isEmpty then m
  else
    match tokensOf line with
    | s :: g :: _ => upsertA m s g
    | _ => m

/-- Embedding of `read_meta`: fold the per-line step over the file's lines and
fail exactly when the resulting mapping is empty. -/
def readMeta (ls : List String) : Except String (List (String × String)) :=
  let m := ls.foldl metaStep []
  if m.isEmpty then .error "Metadata file is empty or malformed." else .ok m

/-- The (id, group) record of one metadata line, if it has two fields. -/
def linePair (line : String) : Option (String × String) :=
  match tokensOf line with
  | s :: g :: _ => some (s, g)
  | _ => none

/-- Group label of the last line whose first field is `k` (among lines with at
least two fields) — the specification-side description of dict overwriting. -/
def lastGroupFor (ls : List String) (k : String) : Option String :=
  ((ls.filterMap linePair).filter (fun pr => decide (pr.1 = k))).getLast?.map Prod.snd

/-- Assignment contributed by one metadata line for key `k`, if any. -/
def lineAssign (line : String) (k : String) : Option String :=
  (linePair line).bind (fun pr => if pr.1 = k then some pr.2 else none)

/-- Specification-side sum of distances from member `i` to the *other* members
of its cluster, read from the full original matrix (spec §4.5: the medoid is
the member minimising this sum). -/
def sumOthers (M : Mat) (mem : List ℕ) (i : ℕ) : ℚ :=
  ((mem.filter (fun j => decide (j ≠ i))).map (fun j => (M i j).toQ)).sum

/-- Chosen threshold of a run result (0 for a failed run). -/
def chosenOf (r : Except MainError MainOut) : ℚ :=
  match r with
  | .ok o => o.threshold
  | .error _ => 0

/-- Rational image of the `np.argmin` scan, used to reason about `argminD` on
NaN-free vectors. -/
def argminQgo : List ℚ → ℚ → ℕ → ℕ → ℕ
  | [], _, best, _ => best
  | v :: rest, cur, best, pos =>
      if v < cur then argminQgo rest v pos (pos + 1) else argminQgo rest cur best (pos + 1)

/-- Concrete matrix refuting C8: its only NaN sits in the lower triangle, which
`squareform(..., checks=False)` never reads. -/
def Mex8 : Mat := fun i j =>
  if i = 0 ∧ j = 1 then .val (1/2) else if i = 1 ∧ j = 0 then .nan else .val 0

/-- Concrete matrix refuting C4: upper-triangle distance 1/2, an (unread)
lower-triangle distance 3, and a caller bound larger than every observed
distance. -/
def MexC4 : Mat := fun i j =>
  if i = 0 ∧ j = 1 then .val (1/2) else if i = 1 ∧ j = 0 then .val 3 else .val 0

/-- Concrete matrix refuting C5: d(0,1) = 1, d(0,2) = d(1,2) = 3, so the
average-linkage merges happen at heights 1 and 3. -/
def Mex3 : Mat := fun i j =>
  if i = j then .val 0
  else if (i = 0 ∧ j = 1) ∨ (i = 1 ∧ j = 0) then .val 1
  else .val 3

/-- Concrete 4-point matrix refuting C3 (average-linkage merge heights 1, 3 and
9, none of the heights 3 and 9 an observed pairwise distance). -/
def Mex4 : Mat := fun i j =>
  if i = j then .val 0 else
  if (i = 0 ∧ j = 1) ∨ (i = 1 ∧ j = 0) then .val 1 else
  if (i = 0 ∧ j = 2) ∨ (i = 2 ∧ j = 0) then .val (5/2) else
  if (i = 0 ∧ j = 3) ∨ (i = 3 ∧ j = 0) then .val 8 else
  if (i = 1 ∧ j = 2) ∨ (i = 2 ∧ j = 1) then .val (7/2) else
  if (i = 1 ∧ j = 3) ∨ (i = 3 ∧ j = 1) then .val 9 else .val 10

/-- Names used by the concrete C3 run. -/
def namesEx4 : List String := ["a", "b", "c", "d"]

/-- Dendrogram of the concrete C3 run. -/
def Zex4 : List (ℕ × ℕ × ℚ) := linkage .average 4 (symQ Mex4)

/-- Selection-size function of the concrete C3 run (exactly the `f` that
`runMain` scans with on these inputs). -/
def fex4 : ℚ → ℕ :=
  fun c => (selectAtThreshold Zex4 c namesEx4 Mex4 (requiredB namesEx4 [] "P")).1.length

/-- Concrete asymmetric matrix accepted by the run (C9). -/
def MexAsym : Mat := fun i j =>
  if i = 0 ∧ j = 1 then .val 1 else if i = 1 ∧ j = 0 then .val 2 else .val 0

/-- Concrete matrix for the C9 medoid part (symmetric variant). -/
def Mex9 : Mat := fun i j =>
  if i = j then .val 0 else
  if (i = 0 ∧ j = 1) ∨ (i = 1 ∧ j = 0) then .val 1 else
  if (i = 0 ∧ j = 2) ∨ (i = 2 ∧ j = 0) then .val 4 else .val 1

/-- Variant of `Mex9` that differs only in the lower triangle, changing the
medoid of the cluster 0,1,2. -/
def Mex9' : Mat := fun i j =>
  if i < j then Mex9 i j else
  if i = 1 ∧ j = 0 then .val 100 else .val 0

/-! ### Proof infrastructure for the dendrogram cut (used by the monotonicity
analysis): leaf sets of dendrogram nodes, availability of a node at a stage of
the cut, well-formedness of a linkage matrix, and stagewise labels. -/

/-- First child id of linkage row `m` (0 when out of range). -/
def chA (Z : List (ℕ × ℕ × ℚ)) (m : ℕ) : ℕ := (Z.getD m (0, 0, 0)).1

/-- Second child id of linkage row `m` (0 when out of range). -/
def chB (Z : List (ℕ × ℕ × ℚ)) (m : ℕ) : ℕ := (Z.getD m (0, 0, 0)).2.1

/-- Height of linkage row `m` (0 when out of range). -/
def chH (Z : List (ℕ × ℕ × ℚ)) (m : ℕ) : ℚ := (Z.getD m (0, 0, 0)).2.2

/-- Leaf set of one linkage row, given the sets of the preceding rows. -/
def memVal (n : ℕ) (acc : List (Finset ℕ)) (s : ℕ × ℕ × ℚ) : Finset ℕ :=
  (if s.1 < n then {s.1} else acc.getD (s.1 - n) ∅)
    ∪ (if s.2.1 < n then {s.2.1} else acc.getD (s.2.1 - n) ∅)

/-- Accumulating pass computing the leaf sets of every linkage row. -/
def memAux (n : ℕ) : List (ℕ × ℕ × ℚ) → List (Finset ℕ) → List (Finset ℕ)
  | [], acc => acc
  | s :: rest, acc => memAux n rest (acc ++ [memVal n acc s])

/-- Leaf sets of all rows of a linkage matrix. -/
def memOf (n : ℕ) (Z : List (ℕ × ℕ × ℚ)) : List (Finset ℕ) := memAux n Z []

/-- Leaf set of a dendrogram node id (a singleton for a leaf id below `n`). -/
def membOf (n : ℕ) (Z : List (ℕ × ℕ × ℚ)) (c : ℕ) : Finset ℕ :=
  if c < n then {c} else (memOf n Z).getD (c - n) ∅

/-- Row `m` is applied when cutting at threshold `t` (its subtree maximum is
within the threshold). -/
def appP (n : ℕ) (Z : List (ℕ × ℕ × ℚ)) (t : ℚ) (m : ℕ) : Prop :=
  m < Z.length ∧ (smOf n Z).getD m 0 ≤ t

/-- Node id `c` is available after the first `k` rows of the cut at `t`: it has
been formed (a leaf, or an applied row below `k`) and not yet consumed as a
child of an applied row below `k`. -/
def availC (n : ℕ) (Z : List (ℕ × ℕ × ℚ)) (t : ℚ) (k : ℕ) (c : ℕ) : Prop :=
  (c < n ∨ (n ≤ c ∧ c - n < k ∧ appP n Z t (c - n)))
    ∧ ∀ m, m < k → appP n Z t m → c ≠ chA Z m ∧ c ≠ chB Z m

/-- Well-formedness of a linkage matrix over `n` leaves: children of row `m`
are earlier nodes and distinct, and no node is a child of two rows.  The
output of `linkage` satisfies this. -/
def WF (n : ℕ) (Z : List (ℕ × ℕ × ℚ)) : Prop :=
  (∀ m, m < Z.length → chA Z m < n + m ∧ chB Z m < n + m ∧ chA Z m ≠ chB Z m)
    ∧ ∀ m m', m < Z.length → m' < Z.length → m < m' →
        chA Z m ≠ chA Z m' ∧ chA Z m ≠ chB Z m'
          ∧ chB Z m ≠ chA Z m' ∧ chB Z m ≠ chB Z m'

/-- Labels of the cut after applying only the first `k` rows. -/
def labelsAt (n : ℕ) (Z : List (ℕ × ℕ × ℚ)) (t : ℚ) (k : ℕ) : ℕ → ℕ :=
  cutGo n t (Z.take k) [] id

/-- Invariant of the cut at stage `k`: every leaf's label is an available node
whose leaf set contains the leaf. -/
def okL (n : ℕ) (Z : List (ℕ × ℕ × ℚ)) (t : ℚ) (k : ℕ) (L : ℕ → ℕ) : Prop :=
  ∀ i, i < n → availC n Z t k (L i) ∧ i ∈ membOf n Z (L i)

/-- Partition invariant at stage `k`: a leaf lies in the leaf set of at most
one available node. -/
def partInv (n : ℕ) (Z : List (ℕ × ℕ × ℚ)) (t : ℚ) (k : ℕ) : Prop :=
  ∀ i, i < n → ∀ c c', availC n Z t k c → availC n Z t k c' →
    i ∈ membOf n Z c → i ∈ membOf n Z c' → c = c'

/-- Member list of the cluster labelled `c` (as `clustersOf` builds it). -/
def fiberL (n : ℕ) (L : ℕ → ℕ) (c : ℕ) : List ℕ :=
  (List.range n).filter (fun i => decide (L i = c))

/-- Labels used by a labelling of `0..n-1`. -/
def usedLabels (n : ℕ) (L : ℕ → ℕ) : Finset ℕ := (Finset.range n).image L

/-- Used labels whose whole cluster is free of required items. -/
def reqFreeLabels (n : ℕ) (L : ℕ → ℕ) (required : ℕ → Bool) : Finset ℕ :=
  (usedLabels n L).filter (fun c => ∀ i ∈ Finset.range n, L i = c → required i = false)

/-! ### Basic lemmas about the embedded operations -/

theorem contains_iff_mem {l : List ℕ} {a : ℕ} : l.contains a = true ↔ a ∈ l := by
  simp [List.contains]

theorem mem_condensedList {M : Mat} {n : ℕ} {v : DVal} :
    v ∈ condensedList M n ↔ ∃ i j, i < j ∧ j < n ∧ M i j = v := by
  simp only [condensedList, List.mem_flatten, List.mem_map, List.mem_filter, List.mem_range,
    decide_eq_true_eq]
  constructor
  · rintro ⟨l, ⟨i, hi, rfl⟩, hv⟩
    rcases List.mem_map.mp hv with ⟨j, hj, rfl⟩
    rcases List.mem_filter.mp hj with ⟨hj1, hj2⟩
    exact ⟨i, j, of_decide_eq_true hj2, List.mem_range.mp hj1, rfl⟩
  · rintro ⟨i, j, hij, hj, rfl⟩
    refine ⟨_, ⟨i, lt_trans hij hj, rfl⟩, List.mem_map.mpr ⟨j, ?_, rfl⟩⟩
    exact List.mem_filter.mpr ⟨List.mem_range.mpr hj, decide_eq_true hij⟩

theorem mem_posVals {l : List DVal} {a : ℚ} :
    a ∈ posVals l ↔ 0 < a ∧ DVal.val a ∈ l := by
  simp only [posVals, List.mem_filterMap]
  constructor
  · rintro ⟨v, hv, he⟩
    cases v with
    | nan => simp [posOf] at he
    | val q =>
        by_cases hq : 0 < q
        · rw [posOf, if_pos hq] at he
          cases he
          exact ⟨hq, hv⟩
        · rw [posOf, if_neg hq] at he
          cases he
  · rintro ⟨ha, hv⟩
    exact ⟨DVal.val a, hv, by rw [posOf, if_pos ha]⟩

theorem mem_sortedUnique {l : List ℚ} {a : ℚ} : a ∈ sortedUnique l ↔ a ∈ l := by
  simp [sortedUnique, List.mem_insertionSort, List.mem_dedup]

theorem sorted_lt_sortedUnique (l : List ℚ) : List.Sorted (· < ·) (sortedUnique l) := by
  refine List.Sorted.lt_of_le ?_ ?_
  · exact List.sorted_insertionSort _ _
  · exact (List.perm_insertionSort _ _).nodup_iff.mpr (List.nodup_dedup l)

theorem le_foldl_max (l : List ℚ) (b : ℚ) : b ≤ l.foldl max b := by
  induction l generalizing b with
  | nil => exact le_refl b
  | cons x xs ih => exact le_trans (le_max_left b x) (ih (max b x))

theorem mem_le_foldl_max {l : List ℚ} {a : ℚ} (h : a ∈ l) (b : ℚ) : a ≤ l.foldl max b := by
  induction l generalizing b with
  | nil => cases h
  | cons x xs ih =>
      rcases List.mem_cons.mp h with rfl | h'
      · exact le_trans (le_max_right b a) (le_foldl_max xs (max b a))
      · exact ih h' (max b x)

theorem foldl_max_le {l : List ℚ} {b m : ℚ} (hb : b ≤ m) (h : ∀ a ∈ l, a ≤ m) :
    l.foldl max b ≤ m := by
  induction l generalizing b with
  | nil => exact hb
  | cons x xs ih =>
      exact ih (max_le hb (h x (List.mem_cons_self x xs))) fun a ha => h a (List.mem_cons_of_mem x ha)

theorem le_qmax {l : List ℚ} {a : ℚ} (h : a ∈ l) : a ≤ qmax l := mem_le_foldl_max h 0

theorem qmax_le {l : List ℚ} {m : ℚ} (h0 : 0 ≤ m) (h : ∀ a ∈ l, a ≤ m) : qmax l ≤ m :=
  foldl_max_le h0 h

theorem runMain_infeasible_iff (names : List String) (M : Mat) (meta : List (String × String))
    (p : String) (target : ℤ) (meth : LinkMethod) (mt : Option ℚ) :
    runMain names M meta p target meth mt = .error .infeasible ↔
      (reqCount names meta p : ℤ) > target := by
  by_cases h : (reqCount names meta p : ℤ) > target
  · simp [runMain, h]
  · by_cases h2 : (condensedList M names.length).any DVal.isNaN
    · simp [runMain, h, h2]
    · simp [runMain, h, h2]

/-! ### C2: the feasibility check -/

/-- C2: the run fails with the infeasibility error (`ensure_priority_subset`)
iff the number of required items strictly exceeds the target ceiling, and when
it fires the result is fixed before any matrix-dependent work: the same error
is produced whatever the distance matrix contains (so neither the condensed
conversion nor the dendrogram construction can have been consulted). -/
theorem C2_priority_check (names : List String) (M : Mat) (meta : List (String × String))
    (p : String) (target : ℤ) (meth : LinkMethod) (mt : Option ℚ) :
    (runMain names M meta p target meth mt = .error .infeasible ↔
        (reqCount names meta p : ℤ) > target)
    ∧ ((reqCount names meta p : ℤ) > target →
        ∀ M' : Mat, runMain names M' meta p target meth mt = .error .infeasible) :=
  ⟨runMain_infeasible_iff names M meta p target meth mt,
    fun h M' => (runMain_infeasible_iff names M' meta p target meth mt).mpr h⟩

/-- Witness for C2 at a concrete infeasible input (one required item,
target 0). -/
theorem C2_priority_check_witness :
    runMain ["A_1"] (fun _ _ => DVal.val 0) [("A", "P")] "P" 0 .average none
      = .error .infeasible :=
  (C2_priority_check ["A_1"] (fun _ _ => DVal.val 0) [("A", "P")] "P" 0 .average none).2
    (by decide) (fun _ _ => DVal.val 0)

/-! ### C8: the NaN check covers only the strict upper triangle -/

/-- C8 is refuted at a concrete input: `Mex8` contains NaN (at position (1,0),
in the lower triangle) yet the run succeeds instead of failing with the data
error, because `squareform(..., checks=False)` reads only the strict upper
triangle. -/
theorem C8_counterexample :
    Mex8 1 0 = DVal.nan
    ∧ (runMain ["A_1", "B_1"] Mex8 [("A", "P"), ("B", "P")] "P" 2 .average none).isOk
        = true :=
  ⟨rfl, by with_unfolding_all decide⟩

/-- C8 (amended): a NaN in the *strict upper triangle* of the matrix makes the
run fail with the data error (provided the earlier feasibility check passes),
and the failure is decided before the dendrogram is built. -/
theorem C8_nan_upper_triangle (names : List String) (M : Mat)
    (meta : List (String × String)) (p : String) (target : ℤ) (meth : LinkMethod)
    (mt : Option ℚ) (hfeas : (reqCount names meta p : ℤ) ≤ target)
    (i j : ℕ) (hij : i < j) (hj : j < names.length) (hnan : M i j = DVal.nan) :
    runMain names M meta p target meth mt = .error .dataError := by
  have hany : (condensedList M names.length).any DVal.isNaN = true := by
    rw [List.any_eq_true]
    exact ⟨DVal.nan, mem_condensedList.mpr ⟨i, j, hij, hj, hnan⟩, rfl⟩
  simp [runMain, not_lt.mpr hfeas, hany]

/-- Witness for the amended C8 at a concrete input with NaN at (0,1). -/
theorem C8_nan_upper_triangle_witness :
    runMain ["A_1", "B_1"] (fun i j => if i = 0 ∧ j = 1 then DVal.nan else DVal.val 0)
      [("A", "P"), ("B", "P")] "P" 2 .average none = .error .dataError :=
  C8_nan_upper_triangle ["A_1", "B_1"]
    (fun i j => if i = 0 ∧ j = 1 then DVal.nan else DVal.val 0)
    [("A", "P"), ("B", "P")] "P" 2 .average none (by decide) 0 1
    (by decide) (by decide) (by decide)

/-! ### C4: shape of the candidate-threshold list -/

/-- C4 is refuted at a concrete input: with the single observed distance 1/2
and `--max-threshold 7` (larger than every observed distance), the sentinel is
`1/2 + 1e-6`, not `7 + 1e-6` as the claim's `max(...)` formula requires (the
code takes `min`); moreover the lower-triangle off-diagonal distance 3 is not a
candidate. -/
theorem C4_counterexample :
    (candidateList MexC4 2 (some 7)).length = 2
    ∧ (candidateList MexC4 2 (some 7)).getD 0 0 = 1 / 2
    ∧ ((candidateList MexC4 2 (some 7)).getD 1 0).num = 500001
    ∧ ((candidateList MexC4 2 (some 7)).getD 1 0).den = 1000000
    ∧ ((7 : ℚ) + 1 / 1000000).num = 7000001
    ∧ ((7 : ℚ) + 1 / 1000000).den = 1000000
    ∧ MexC4 1 0 = DVal.val 3
    ∧ (∀ a ∈ candidateList MexC4 2 (some 7), a < 3)
    ∧ (∀ q ∈ posVals (condensedList MexC4 2), q < 7) := by
  refine ⟨?_, ?_, ?_, ?_, ?_, ?_, ?_, ?_, ?_⟩ <;> with_unfolding_all decide

/-- C4 (amended): when the matrix has at least one strictly positive
upper-triangle entry, the candidate list is the ascending list of distinct
strictly positive strict-upper-triangle distances followed by a single
sentinel `min(largest candidate, caller bound) + 1e-6`; in particular a caller
bound at least every candidate leaves the sentinel at
`largest observed distance + 1e-6` (not `bound + 1e-6`). -/
theorem C4_candidate_shape (M : Mat) (n : ℕ) (mt : Option ℚ)
    (hpos : ∃ q, 0 < q ∧ DVal.val q ∈ condensedList M n) :
    ∃ pos sentinel, candidateList M n mt = pos ++ [sentinel]
      ∧ List.Sorted (· < ·) pos
      ∧ (∀ a, a ∈ pos ↔ 0 < a ∧ ∃ i j, i < j ∧ j < n ∧ M i j = DVal.val a)
      ∧ pos ≠ []
      ∧ sentinel
          = (match mt with | none => qmax pos | some m => min (qmax pos) m) + 1 / 1000000
      ∧ (∀ m, mt = some m → (∀ a ∈ pos, a ≤ m) →
          sentinel = qmax pos + 1 / 1000000) := by
  obtain ⟨q, hq, hmem⟩ := hpos
  have hqpos : q ∈ sortedUnique (posVals (condensedList M n)) :=
    mem_sortedUnique.mpr (mem_posVals.mpr ⟨hq, hmem⟩)
  have hne : sortedUnique (posVals (condensedList M n)) ≠ [] := List.ne_nil_of_mem hqpos
  refine ⟨sortedUnique (posVals (condensedList M n)), _, by simp [candidateList, if_neg hne],
    sorted_lt_sortedUnique _, ?_, hne, rfl, ?_⟩
  · intro a
    rw [mem_sortedUnique, mem_posVals, mem_condensedList]
  · intro m hm hle
    subst hm
    have h0m : (0 : ℚ) ≤ m := le_of_lt (lt_of_lt_of_le hq (hle q hqpos))
    simp [min_eq_left (qmax_le h0m hle)]

/-- Witness for the amended C4 at a concrete input. -/
theorem C4_candidate_shape_witness :
    ∃ pos sentinel, candidateList MexC4 2 (some 7) = pos ++ [sentinel]
      ∧ List.Sorted (· < ·) pos := by
  obtain ⟨pos, sentinel, h1, h2, -, -, -, -⟩ :=
    C4_candidate_shape MexC4 2 (some 7)
      ⟨1 / 2, by with_unfolding_all decide, by with_unfolding_all decide⟩
  exact ⟨pos, sentinel, h1, h2⟩

/-! ### C10: the metadata reader -/

theorem tokensOf_of_strip_empty {line : String} (h : (pystrip line.toList).isEmpty = true) :
    tokensOf line = [] := by
  rw [List.isEmpty_iff] at h
  rw [tokensOf, h]
  rfl

theorem metaStep_skip {m : List (String × String)} {line : String}
    (h : (tokensOf line).length < 2) : metaStep m line = m := by
  unfold metaStep
  split
  · rfl
  · split
    · next s g rest heq => rw [heq] at h; simp at h; omega
    · rfl

theorem metaStep_valid {m : List (String × String)} {line : String} {s g : String}
    {rest : List String} (h : tokensOf line = s :: g :: rest) :
    metaStep m line = upsertA m s g := by
  unfold metaStep
  split
  · next hemp => rw [tokensOf_of_strip_empty hemp] at h; cases h
  · split
    · next s' g' rest' heq =>
        rw [h] at heq
        cases heq
        rfl
    · next hne => exact absurd h (fun hh => hne _ _ _ hh)

theorem upsertA_ne_nil (m : List (String × String)) (k v : String) : upsertA m k v ≠ [] := by
  unfold upsertA
  split
  · next hc =>
      intro h
      rw [List.map_eq_nil_iff] at h
      subst h
      simp [List.contains] at hc
  · exact fun h => by simp at h

theorem metaStep_ne_nil {m : List (String × String)} (hm : m ≠ []) (line : String) :
    metaStep m line ≠ [] := by
  unfold metaStep
  split
  · exact hm
  · split
    · exact upsertA_ne_nil _ _ _
    · exact hm

theorem foldl_metaStep_ne_nil {m : List (String × String)} (hm : m ≠ []) (ls : List String) :
    ls.foldl metaStep m ≠ [] := by
  induction ls generalizing m with
  | nil => exact hm
  | cons l ls ih => exact ih (metaStep_ne_nil hm l)

theorem foldl_metaStep_filter (ls : List String) (m : List (String × String)) :
    (ls.filter (fun l => decide (2 ≤ (tokensOf l).length))).foldl metaStep m
      = ls.foldl metaStep m := by
  induction ls generalizing m with
  | nil => rfl
  | cons l ls ih =>
      by_cases h : 2 ≤ (tokensOf l).length
      · rw [List.filter_cons, if_pos (by simpa using h), List.foldl_cons, List.foldl_cons]
        exact ih _
      · rw [List.filter_cons, if_neg (by simpa using h), List.foldl_cons,
          metaStep_skip (by omega)]
        exact ih m

theorem lookupA_append (m m' : List (String × String)) (k : String) :
    lookupA (m ++ m') k = (lookupA m k).or (lookupA m' k) := by
  induction m with
  | nil => rfl
  | cons p rest ih =>
      by_cases h : p.1 = k
      · simp [lookupA, h]
      · simpa [lookupA, h] using ih

theorem lookupA_eq_none_of_not_mem {m : List (String × String)} {k : String}
    (h : k ∉ m.map Prod.fst) : lookupA m k = none := by
  induction m with
  | nil => rfl
  | cons p rest ih =>
      rw [List.map_cons, List.mem_cons] at h
      push_neg at h
      rw [lookupA, if_neg (fun he => h.1 he.symm)]
      exact ih h.2

theorem lookupA_map_ne {m : List (String × String)} {s g k : String} (hks : k ≠ s) :
    lookupA (m.map (fun p => if p.1 = s then (s, g) else p)) k = lookupA m k := by
  induction m with
  | nil => rfl
  | cons p rest ih =>
      by_cases hps : p.1 = s
      · rw [List.map_cons, if_pos hps, lookupA, lookupA,
          if_neg (fun h : s = k => hks h.symm), if_neg (fun h : p.1 = k => hks (h.symm.trans hps))]
        exact ih
      · rw [List.map_cons, if_neg hps, lookupA, lookupA]
        by_cases hpk : p.1 = k
        · rw [if_pos hpk, if_pos hpk]
        · rw [if_neg hpk, if_neg hpk]
          exact ih

theorem lookupA_map_eq {m : List (String × String)} {s g : String}
    (hc : s ∈ m.map Prod.fst) :
    lookupA (m.map (fun p => if p.1 = s then (s, g) else p)) s = some g := by
  induction m with
  | nil => cases hc
  | cons p rest ih =>
      by_cases hps : p.1 = s
      · rw [List.map_cons, if_pos hps, lookupA, if_pos rfl]
      · rw [List.map_cons, if_neg hps, lookupA, if_neg hps]
        rcases List.mem_cons.mp hc with h | h
        · exact absurd h.symm hps
        · exact ih h

theorem lookupA_upsertA (m : List (String × String)) (s g k : String) :
    lookupA (upsertA m s g) k = if k = s then some g else lookupA m k := by
  unfold upsertA
  split
  · next hc =>
      have hmem : s ∈ m.map Prod.fst := by simpa [List.contains] using hc
      by_cases hks : k = s
      · subst hks
        rw [if_pos rfl]
        exact lookupA_map_eq hmem
      · rw [if_neg hks]
        exact lookupA_map_ne hks
  · next hc =>
      have hmem : s ∉ m.map Prod.fst := by simpa [List.contains] using hc
      rw [lookupA_append]
      by_cases hks : k = s
      · subst hks
        rw [if_pos rfl, lookupA_eq_none_of_not_mem hmem]
        simp [lookupA]
      · rw [if_neg hks]
        have h1 : lookupA [(s, g)] k = none := by
          rw [lookupA, if_neg (fun h : s = k => hks h.symm)]
          rfl
        rw [h1, Option.or_none]

theorem getLast?_cons_or {α : Type} (a : α) (l : List α) :
    (a :: l).getLast? = (l.getLast?).or (some a) := by
  induction l generalizing a with
  | nil => rfl
  | cons b l ih =>
      rw [List.getLast?_cons_cons, ih b]
      cases hl : l.getLast? with
      | none => rfl
      | some x => rfl

theorem lastGroupFor_cons (l : String) (ls : List String) (k : String) :
    lastGroupFor (l :: ls) k = (lastGroupFor ls k).or (lineAssign l k) := by
  unfold lastGroupFor lineAssign
  rw [List.filterMap_cons]
  cases hlp : linePair l with
  | none => exact Option.or_none.symm
  | some pr =>
      rw [List.filter_cons]
      by_cases hsk : pr.1 = k
      · have hb : ((some pr).bind fun pr => if pr.1 = k then some pr.2 else none)
            = some pr.2 := by
          show (if pr.1 = k then some pr.2 else none) = some pr.2
          rw [if_pos hsk]
        rw [if_pos (by simpa using hsk), getLast?_cons_or, hb]
        cases (List.filter (fun pr => decide (pr.1 = k)) (List.filterMap linePair ls)).getLast? with
        | none => rfl
        | some x => rfl
      · have hb : ((some pr).bind fun pr => if pr.1 = k then some pr.2 else none)
            = none := by
          show (if pr.1 = k then some pr.2 else none) = none
          rw [if_neg hsk]
        rw [if_neg (by simpa using hsk), hb, Option.or_none]

theorem lookupA_foldl_metaStep (ls : List String) (m : List (String × String)) (k : String) :
    lookupA (ls.foldl metaStep m) k = (lastGroupFor ls k).or (lookupA m k) := by
  induction ls generalizing m with
  | nil => rfl
  | cons l ls ih =>
      rw [List.foldl_cons, ih, lastGroupFor_cons, Option.or_assoc]
      congr 1
      rcases htok : tokensOf l with _ | ⟨s, _ | ⟨g, rest⟩⟩
      · have hla : lineAssign l k = none := by
          unfold lineAssign linePair
          rw [htok]
          rfl
        rw [metaStep_skip (by rw [htok]; decide), hla]
        rfl
      · have hla : lineAssign l k = none := by
          unfold lineAssign linePair
          rw [htok]
          rfl
        rw [metaStep_skip (by rw [htok]; simp), hla]
        rfl
      · have hla : lineAssign l k = if s = k then some g else none := by
          unfold lineAssign linePair
          rw [htok]
          rfl
        rw [metaStep_valid htok, lookupA_upsertA, hla]
        by_cases hks : k = s
        · rw [if_pos hks, if_pos hks.symm]
          rfl
        · rw [if_neg hks, if_neg (fun h : s = k => hks h.symm)]
          rfl

/-- C10: the metadata reader silently skips any line with fewer than two
whitespace-separated fields (running it on the file or on the file with those
lines removed is indistinguishable), for a duplicated sample id the last
occurrence wins (the final mapping of a key is the group field of the last
line carrying it), and it raises an error exactly when no line of the whole
file has two fields. -/
theorem C10_read_meta (ls : List String) :
    readMeta ls = readMeta (ls.filter (fun l => decide (2 ≤ (tokensOf l).length)))
    ∧ ((∃ e, readMeta ls = .error e) ↔ ∀ l ∈ ls, (tokensOf l).length < 2)
    ∧ (∀ m, readMeta ls = .ok m → ∀ k, lookupA m k = lastGroupFor ls k) := by
  refine ⟨?_, ⟨?_, ?_⟩, ?_⟩
  · unfold readMeta
    rw [foldl_metaStep_filter]
  · intro ⟨e, he⟩ l hl
    by_contra hc
    have hval : 2 ≤ (tokensOf l).length := by omega
    simp only [readMeta] at he
    split at he
    · next hemp =>
        rw [List.isEmpty_iff] at hemp
        rw [← foldl_metaStep_filter] at hemp
        have hmem : l ∈ ls.filter (fun l => decide (2 ≤ (tokensOf l).length)) :=
          List.mem_filter.mpr ⟨hl, decide_eq_true hval⟩
        rcases List.append_of_mem hmem with ⟨l1, l2, hsplit⟩
        rw [hsplit, List.foldl_append, List.foldl_cons] at hemp
        rcases htok : tokensOf l with _ | ⟨s, _ | ⟨g, rest⟩⟩
        · rw [htok] at hval; simp at hval
        · rw [htok] at hval; simp at hval
        · rw [metaStep_valid htok] at hemp
          exact foldl_metaStep_ne_nil (upsertA_ne_nil _ _ _) l2 hemp
    · cases he
  · intro hall
    have : ls.foldl metaStep [] = [] := by
      rw [← foldl_metaStep_filter]
      have : ls.filter (fun l => decide (2 ≤ (tokensOf l).length)) = [] := by
        rw [List.filter_eq_nil_iff]
        intro l hl
        simpa using Nat.not_le.mpr (hall l hl)
      rw [this]
      rfl
    exact ⟨_, by simp only [readMeta]; rw [this]; rfl⟩
  · intro m hm k
    simp only [readMeta] at hm
    split at hm
    · cases hm
    · cases hm
      rw [lookupA_foldl_metaStep]
      exact Option.or_none

/-- Witness for C10 at a concrete metadata file: the malformed lines are
skipped, the run succeeds, and the key keeps its last assignment. -/
theorem C10_read_meta_witness :
    readMeta ["x P", "", "onlyone", "x Q"] = .ok [("x", "Q")]
    ∧ lookupA [("x", "Q")] "x" = lastGroupFor ["x P", "", "onlyone", "x Q"] "x" :=
  ⟨by rfl, (C10_read_meta ["x P", "", "onlyone", "x Q"]).2.2 [("x", "Q")] (by rfl) "x"⟩

/-! ### C7: shape of the selection and of the cluster report -/

theorem map_getD_range (names : List String) :
    (List.range names.length).map (fun i => names.getD i "") = names := by
  apply List.ext_getElem
  · simp
  · intro n h1 h2
    simp only [List.getElem_map, List.getElem_range]
    exact List.getD_eq_getElem names "" h2

theorem runMain_ok (names : List String) (M : Mat) (meta : List (String × String))
    (p : String) (target : ℤ) (meth : LinkMethod) (mt : Option ℚ)
    (hfeas : ¬(reqCount names meta p : ℤ) > target)
    (hnan : (condensedList M names.length).any DVal.isNaN = false) :
    runMain names M meta p target meth mt = .ok (runBody names M meta p target meth mt) := by
  simp [runMain, hfeas, hnan]

/-- C7: for every threshold, the index selection returned by
`select_at_threshold` is strictly ascending (hence duplicate-free), all its
indices are valid, the corresponding name list is a sublist of the input names
(a subset in original input order), and the cluster records are sorted by
cluster id. -/
theorem C7_selection_shape (Z : List (ℕ × ℕ × ℚ)) (t : ℚ) (names : List String) (M : Mat)
    (required : ℕ → Bool) :
    List.Sorted (· < ·) (selectAtThreshold Z t names M required).1
    ∧ (selectAtThreshold Z t names M required).1.Nodup
    ∧ (∀ i ∈ (selectAtThreshold Z t names M required).1, i < names.length)
    ∧ ((selectAtThreshold Z t names M required).1.map (fun i => names.getD i "")).Sublist
        names
    ∧ List.Sorted recLE (selectAtThreshold Z t names M required).2 := by
  have hfst : (selectAtThreshold Z t names M required).1
      = (List.range names.length).filter
          (fun i =>
            (keptAll names.length (cutLabels names.length Z t) M required).contains i) := rfl
  have hsorted : List.Sorted (· < ·) (selectAtThreshold Z t names M required).1 := by
    rw [hfst]
    exact List.Pairwise.sublist (List.filter_sublist _) (List.pairwise_lt_range _)
  refine ⟨hsorted, hsorted.imp (fun h => Nat.ne_of_lt h), ?_, ?_, ?_⟩
  · intro i hi
    rw [hfst] at hi
    exact List.mem_range.mp (List.mem_filter.mp hi).1
  · rw [hfst]
    have := List.Sublist.map (fun i => names.getD i "")
      (List.filter_sublist (p := fun i =>
        (keptAll names.length (cutLabels names.length Z t) M required).contains i)
        (List.range names.length))
    rwa [map_getD_range] at this
  · exact List.sorted_insertionSort recLE _

/-! ### C1: every required index survives into the final selection -/

theorem mem_selIndices {n : ℕ} {L : ℕ → ℕ} {M : Mat} {required : ℕ → Bool} {i : ℕ} :
    i ∈ selIndices n L M required ↔ i < n ∧ i ∈ keptAll n L M required := by
  unfold selIndices
  rw [List.mem_filter, List.mem_range, contains_iff_mem]

theorem mem_keptAll_of_required {n : ℕ} {L : ℕ → ℕ} {M : Mat} {required : ℕ → Bool}
    {i : ℕ} (hi : i < n) (hr : required i = true) :
    i ∈ keptAll n L M required := by
  unfold keptAll
  rw [List.mem_flatten]
  refine ⟨keptOf M required ((List.range n).filter (fun j => decide (L j = L i))), ?_, ?_⟩
  · rw [List.mem_map]
    refine ⟨(L i, (List.range n).filter (fun j => decide (L j = L i))), ?_, rfl⟩
    unfold clustersOf
    rw [List.mem_map]
    exact ⟨L i, List.mem_dedup.mpr (List.mem_map.mpr ⟨i, List.mem_range.mpr hi, rfl⟩), rfl⟩
  · unfold keptOf
    have himem : i ∈ (List.range n).filter (fun j => decide (L j = L i)) :=
      List.mem_filter.mpr ⟨List.mem_range.mpr hi, decide_eq_true rfl⟩
    have hreq : i ∈ ((List.range n).filter (fun j => decide (L j = L i))).filter required :=
      List.mem_filter.mpr ⟨himem, hr⟩
    rw [if_neg (by rw [List.isEmpty_iff]; exact fun h => (List.ne_nil_of_mem hreq) h)]
    exact hreq

/-- C1: on every feasible, NaN-free input, each item whose base id is mapped to
the priority label is a member of the final selection: its cluster has at least
one required member, so its whole required subset is retained, and the ordered
final selection therefore contains the item's index. -/
theorem C1_priority_recall (names : List String) (M : Mat) (meta : List (String × String))
    (p : String) (target : ℤ) (meth : LinkMethod) (mt : Option ℚ) (i : ℕ)
    (hfeas : (reqCount names meta p : ℤ) ≤ target)
    (hclean : ∀ v ∈ condensedList M names.length, v.isNaN = false)
    (hi : i < names.length)
    (hp : lookupA meta (baseId (names.getD i "")) = some p) :
    ∃ out, runMain names M meta p target meth mt = .ok out ∧ i ∈ out.selection := by
  have hany : (condensedList M names.length).any DVal.isNaN = false := by
    rw [List.any_eq_false]
    intro v hv h
    rw [hclean v hv] at h
    cases h
  refine ⟨runBody names M meta p target meth mt,
    runMain_ok names M meta p target meth mt (not_lt.mpr hfeas) hany, ?_⟩
  show i ∈ selIndices names.length _ M (requiredB names meta p)
  exact mem_selIndices.mpr ⟨hi, mem_keptAll_of_required hi (decide_eq_true hp)⟩

/-- Witness for C1 at a concrete input: index 0 is required and selected. -/
theorem C1_priority_recall_witness :
    ∃ out, runMain ["A_1", "B_1"] (fun _ _ => DVal.val 0) [("A", "P")] "P" 5 .average none
        = .ok out ∧ 0 ∈ out.selection :=
  C1_priority_recall ["A_1", "B_1"] (fun _ _ => DVal.val 0) [("A", "P")] "P" 5 .average none 0
    (by decide) (by decide) (by decide) (by decide)

/-! ### C9: only the strict upper triangle drives clustering -/

theorem condensedList_congr {M M' : Mat} {n : ℕ}
    (h : ∀ i j, i < j → j < n → M i j = M' i j) :
    condensedList M n = condensedList M' n := by
  unfold condensedList
  congr 1
  apply List.map_congr_left
  intro i hi
  apply List.map_congr_left
  intro j hj
  rcases List.mem_filter.mp hj with ⟨hj1, hj2⟩
  exact h i j (of_decide_eq_true hj2) (List.mem_range.mp hj1)

theorem candidateList_congr {M M' : Mat} {n : ℕ} (mt : Option ℚ)
    (h : ∀ i j, i < j → j < n → M i j = M' i j) :
    candidateList M n mt = candidateList M' n mt := by
  unfold candidateList
  rw [condensedList_congr h]

theorem symQ_congr {M M' : Mat} {n : ℕ}
    (h : ∀ i j, i < j → j < n → M i j = M' i j) :
    ∀ i j, i < n → j < n → i ≠ j → symQ M i j = symQ M' i j := by
  intro i j hi hj hij
  unfold symQ
  rw [h (min i j) (max i j) (by omega) (by omega)]

/-- C9: asymmetry is never validated — no error can depend on it (a concrete
asymmetric matrix runs to success); the clustering input (the symmetric
condensed view) and the candidate thresholds are functions of the strict upper
triangle alone (two matrices agreeing there produce identical condensed data,
candidates and pairwise clustering distances); but medoid selection reads the
full original matrix, so lower-triangle entries can change the retained
representative (shown at a concrete cluster). -/
theorem C9_upper_triangle_only (mt : Option ℚ) :
    (∀ (M M' : Mat) (n : ℕ),
        (∀ i j, i < j → j < n → M i j = M' i j) →
        condensedList M n = condensedList M' n
        ∧ candidateList M n mt = candidateList M' n mt
        ∧ ∀ i j, i < n → j < n → i ≠ j → symQ M i j = symQ M' i j)
    ∧ (runMain ["a", "b"] MexAsym [] "P" 2 .average none).isOk = true
    ∧ MexAsym 0 1 ≠ MexAsym 1 0
    ∧ (∀ i < 3, ∀ j < 3, i < j → Mex9 i j = Mex9' i j)
    ∧ medoidIndex Mex9 [0, 1, 2] = 1
    ∧ medoidIndex Mex9' [0, 1, 2] = 2 := by
  refine ⟨fun M M' n h => ⟨condensedList_congr h, candidateList_congr mt h, symQ_congr h⟩,
    ?_, ?_, ?_, ?_, ?_⟩ <;> with_unfolding_all decide

/-- Witness for C9's universally quantified component at the two concrete
matrices that differ only below the diagonal. -/
theorem C9_upper_triangle_only_witness :
    condensedList Mex9 3 = condensedList Mex9' 3
    ∧ candidateList Mex9 3 none = candidateList Mex9' 3 none :=
  have h : ∀ i j, i < j → j < 3 → Mex9 i j = Mex9' i j := by
    intro i j hij hj
    interval_cases j <;> interval_cases i <;> with_unfolding_all decide
  ⟨((C9_upper_triangle_only none).1 Mex9 Mex9' 3 h).1,
    ((C9_upper_triangle_only none).1 Mex9 Mex9' 3 h).2.1⟩

/-! ### C6: the medoid rule on required-free clusters -/

theorem argminGo_map_val (l : List ℚ) :
    ∀ (cur : ℚ) (best pos : ℕ),
      argminGo (l.map DVal.val) (DVal.val cur) best pos = argminQgo l cur best pos := by
  induction l with
  | nil => intro cur best pos; rfl
  | cons v rest ih =>
      intro cur best pos
      rw [List.map_cons]
      show (if dge (DVal.val v) (DVal.val cur) then argminGo (rest.map DVal.val) (DVal.val cur) best (pos + 1)
          else if (DVal.val v).isNaN then pos
          else argminGo (rest.map DVal.val) (DVal.val v) pos (pos + 1))
        = argminQgo (v :: rest) cur best pos
      by_cases h : cur ≤ v
      · rw [if_pos (by simpa [dge] using h)]
        show _ = if v < cur then argminQgo rest v pos (pos + 1) else argminQgo rest cur best (pos + 1)
        rw [if_neg (not_lt.mpr h)]
        exact ih cur best (pos + 1)
      · rw [if_neg (by simpa [dge] using h)]
        show (if False = True then pos else argminGo (rest.map DVal.val) (DVal.val v) pos (pos + 1)) = _
        rw [if_neg (by simp)]
        show _ = if v < cur then argminQgo rest v pos (pos + 1) else argminQgo rest cur best (pos + 1)
        rw [if_pos (not_le.mp h)]
        exact ih v pos (pos + 1)

theorem argminQgo_props (l : List ℚ) :
    ∀ (cur : ℚ) (best pos : ℕ),
      (argminQgo l cur best pos = best ∧ ∀ x ∈ l, cur ≤ x)
      ∨ (∃ m, m < l.length
          ∧ argminQgo l cur best pos = pos + m
          ∧ l.getD m 0 < cur
          ∧ (∀ x ∈ l, l.getD m 0 ≤ x)
          ∧ (∀ m', m' < m → l.getD m 0 < l.getD m' 0)) := by
  induction l with
  | nil =>
      intro cur best pos
      left
      exact ⟨rfl, by simp⟩
  | cons v rest ih =>
      intro cur best pos
      by_cases h : v < cur
      · have he0 : argminQgo (v :: rest) cur best pos = argminQgo rest v pos (pos + 1) := by
          show (if v < cur then argminQgo rest v pos (pos + 1) else _) = _
          rw [if_pos h]
        rcases ih v pos (pos + 1) with ⟨he, hall⟩ | ⟨m, hm, he, hlt, hle, hstrict⟩
        · right
          refine ⟨0, by simp, by rw [he0, he, Nat.add_zero], ?_, ?_, ?_⟩
          · simpa using h
          · intro x hx
            rcases List.mem_cons.mp hx with rfl | hx'
            · simp
            · simpa using hall x hx'
          · intro m' hm'
            omega
        · right
          refine ⟨m + 1, by simpa using hm, by rw [he0, he]; omega, ?_, ?_, ?_⟩
          · simpa [List.getD_cons_succ] using lt_trans hlt h
          · intro x hx
            rcases List.mem_cons.mp hx with rfl | hx'
            · simpa [List.getD_cons_succ] using le_of_lt hlt
            · simpa [List.getD_cons_succ] using hle x hx'
          · intro m' hm'
            rcases Nat.eq_or_lt_of_le (Nat.succ_le_of_lt hm') with hq | hq
            all_goals {
              rcases m' with _ | m''
              · simpa [List.getD_cons_succ] using hlt
              · rw [List.getD_cons_succ, List.getD_cons_succ]
                exact hstrict m'' (by omega) }
      · have he0 : argminQgo (v :: rest) cur best pos = argminQgo rest cur best (pos + 1) := by
          show (if v < cur then _ else argminQgo rest cur best (pos + 1)) = _
          rw [if_neg h]
        rcases ih cur best (pos + 1) with ⟨he, hall⟩ | ⟨m, hm, he, hlt, hle, hstrict⟩
        · left
          refine ⟨by rw [he0, he], ?_⟩
          intro x hx
          rcases List.mem_cons.mp hx with rfl | hx'
          · exact not_lt.mp h
          · exact hall x hx'
        · right
          refine ⟨m + 1, by simpa using hm, by rw [he0, he]; omega, ?_, ?_, ?_⟩
          · simpa [List.getD_cons_succ] using hlt
          · intro x hx
            rcases List.mem_cons.mp hx with rfl | hx'
            · rw [List.getD_cons_succ]
              exact le_of_lt (lt_of_lt_of_le hlt (not_lt.mp h))
            · simpa [List.getD_cons_succ] using hle x hx'
          · intro m' hm'
            rcases m' with _ | m''
            · rw [List.getD_cons_succ, List.getD_cons_zero]
              exact lt_of_lt_of_le hlt (not_lt.mp h)
            · rw [List.getD_cons_succ, List.getD_cons_succ]
              exact hstrict m'' (by omega)

theorem argminD_spec (Q : List ℚ) (hne : Q ≠ []) :
    argminD (Q.map DVal.val) < Q.length
    ∧ (∀ x ∈ Q, Q.getD (argminD (Q.map DVal.val)) 0 ≤ x)
    ∧ (∀ m', m' < argminD (Q.map DVal.val)
        → Q.getD (argminD (Q.map DVal.val)) 0 < Q.getD m' 0) := by
  rcases Q with _ | ⟨q0, qs⟩
  · cases hne rfl
  · have hd : argminD ((q0 :: qs).map DVal.val) = argminQgo qs q0 0 1 := by
      rw [List.map_cons]
      show (if (DVal.val q0).isNaN then 0 else argminGo (qs.map DVal.val) (DVal.val q0) 0 1) = _
      rw [if_neg (by simp [DVal.isNaN])]
      exact argminGo_map_val qs q0 0 1
    rcases argminQgo_props qs q0 0 1 with ⟨he, hall⟩ | ⟨m, hm, he, hlt, hle, hstrict⟩
    · rw [hd, he]
      refine ⟨by simp, ?_, ?_⟩
      · intro x hx
        rcases List.mem_cons.mp hx with rfl | hx'
        · simp
        · simpa using hall x hx'
      · intro m' hm'
        omega
    · rw [hd, he]
      have h1m : 1 + m = m + 1 := Nat.add_comm 1 m
      rw [h1m]
      refine ⟨by simpa using hm, ?_, ?_⟩
      · intro x hx
        rcases List.mem_cons.mp hx with rfl | hx'
        · simpa [List.getD_cons_succ] using le_of_lt hlt
        · simpa [List.getD_cons_succ] using hle x hx'
      · intro m' hm'
        rcases m' with _ | m''
        · simpa [List.getD_cons_succ, List.getD_cons_zero] using hlt
        · rw [List.getD_cons_succ, List.getD_cons_succ]
          exact hstrict m'' (by omega)

theorem foldl_dadd_val (M : Mat) (i : ℕ) :
    ∀ (mem : List ℕ) (q0 : ℚ), (∀ j ∈ mem, ∃ q, M i j = DVal.val q) →
      mem.foldl (fun acc j => dadd acc (M i j)) (DVal.val q0)
        = DVal.val (q0 + (mem.map (fun j => (M i j).toQ)).sum) := by
  intro mem
  induction mem with
  | nil => intro q0 _; simp
  | cons j rest ih =>
      intro q0 h
      obtain ⟨q, hq⟩ := h j (List.mem_cons_self j rest)
      rw [List.foldl_cons, hq]
      show rest.foldl _ (dadd (DVal.val q0) (DVal.val q)) = _
      rw [show dadd (DVal.val q0) (DVal.val q) = DVal.val (q0 + q) from rfl,
        ih (q0 + q) (fun j' hj' => h j' (List.mem_cons_of_mem _ hj')),
        List.map_cons, List.sum_cons, hq]
      show DVal.val (q0 + q + _) = DVal.val (q0 + (q + _))
      rw [add_assoc]

theorem rowSumD_val {M : Mat} {mem : List ℕ} {i : ℕ}
    (h : ∀ j ∈ mem, ∃ q, M i j = DVal.val q) :
    rowSumD M mem i = DVal.val ((mem.map (fun j => (M i j).toQ)).sum) := by
  unfold rowSumD
  rw [foldl_dadd_val M i mem 0 h, zero_add]

theorem sum_eq_sumOthers {M : Mat} {mem : List ℕ} {i : ℕ} (hnd : mem.Nodup) (hi : i ∈ mem)
    (hdiag : M i i = DVal.val 0) :
    (mem.map (fun j => (M i j).toQ)).sum = sumOthers M mem i := by
  unfold sumOthers
  obtain ⟨l1, l2, rfl⟩ := List.append_of_mem hi
  have h1 : i ∉ l1 := by
    intro hmem
    exact (List.disjoint_of_nodup_append hnd) hmem (List.mem_cons_self i l2)
  have h2 : i ∉ l2 := by
    have := (List.nodup_append.mp hnd).2.1
    exact (List.nodup_cons.mp this).1
  rw [List.filter_append, List.filter_cons]
  rw [if_neg (by simp)]
  have hf1 : List.filter (fun j => decide (j ≠ i)) l1 = l1 :=
    List.filter_eq_self.mpr (fun a ha => decide_eq_true (fun he : a = i => h1 (he ▸ ha)))
  have hf2 : List.filter (fun j => decide (j ≠ i)) l2 = l2 :=
    List.filter_eq_self.mpr (fun a ha => decide_eq_true (fun he : a = i => h2 (he ▸ ha)))
  rw [hf1, hf2]
  rw [List.map_append, List.sum_append, List.map_append, List.sum_append,
    List.map_cons, List.sum_cons, hdiag]
  show _ + (DVal.toQ (DVal.val 0) + _) = _
  rw [show DVal.toQ (DVal.val 0) = 0 from rfl, zero_add]

theorem clustersOf_spec {n : ℕ} {L : ℕ → ℕ} {c : ℕ} {mem : List ℕ}
    (h : (c, mem) ∈ clustersOf n L) :
    mem ≠ [] ∧ mem.Nodup ∧ List.Sorted (· < ·) mem ∧ ∀ i ∈ mem, i < n ∧ L i = c := by
  unfold clustersOf at h
  rcases List.mem_map.mp h with ⟨c', hc', heq⟩
  have hc : c' = c := congrArg Prod.fst heq
  subst hc
  have hmem : mem = (List.range n).filter (fun i => decide (L i = c')) :=
    (congrArg Prod.snd heq).symm
  have hsorted : List.Sorted (· < ·) mem := by
    rw [hmem]
    exact List.Pairwise.sublist (List.filter_sublist _) (List.pairwise_lt_range _)
  refine ⟨?_, hsorted.imp (fun h => Nat.ne_of_lt h), hsorted, ?_⟩
  · rcases List.mem_map.mp (List.mem_dedup.mp hc') with ⟨i, hi, hL⟩
    have : i ∈ mem := by
      rw [hmem]
      exact List.mem_filter.mpr ⟨hi, decide_eq_true hL⟩
    exact List.ne_nil_of_mem this
  · intro i hi
    rw [hmem] at hi
    rcases List.mem_filter.mp hi with ⟨h1, h2⟩
    exact ⟨List.mem_range.mp h1, of_decide_eq_true h2⟩

theorem sorted_getD_le {l : List ℕ} (hs : List.Sorted (· < ·) l) {a b : ℕ}
    (ha : a < l.length) (hb : b < l.length) (hab : a ≤ b) :
    l.getD a 0 ≤ l.getD b 0 := by
  rcases Nat.eq_or_lt_of_le hab with rfl | hlt
  · exact le_refl _
  · rw [List.getD_eq_getElem l 0 ha, List.getD_eq_getElem l 0 hb]
    exact le_of_lt (List.pairwise_iff_getElem.mp hs a b ha hb hlt)

/-- C6: in the selection of `select_at_threshold`, every cluster with no
required member retains exactly one member — the medoid: a member whose sum of
distances (full original matrix) to the other members is minimal, with ties
going to the lowest original index.  Valid distance matrices are assumed on the
cluster: real entries and a zero diagonal.  A singleton cluster retains its
single member (the `mem = [x]` instance of the statement). -/
theorem C6_medoid_rule (Z : List (ℕ × ℕ × ℚ)) (t : ℚ) (names : List String) (M : Mat)
    (required : ℕ → Bool) (c : ℕ) (mem : List ℕ)
    (hmem : (c, mem) ∈ clustersOf names.length (cutLabels names.length Z t))
    (hreq : ∀ i ∈ mem, required i = false)
    (hfin : ∀ i ∈ mem, ∀ j ∈ mem, ∃ q, M i j = DVal.val q)
    (hdiag : ∀ i ∈ mem, M i i = DVal.val 0) :
    keptOf M required mem = [medoidIndex M mem]
    ∧ medoidIndex M mem ∈ mem
    ∧ (∀ j ∈ mem, sumOthers M mem (medoidIndex M mem) ≤ sumOthers M mem j)
    ∧ (∀ j ∈ mem, sumOthers M mem j = sumOthers M mem (medoidIndex M mem)
        → medoidIndex M mem ≤ j) := by
  obtain ⟨hne, hnd, hsorted, hprop⟩ := clustersOf_spec hmem
  have hkept : keptOf M required mem = [medoidIndex M mem] := by
    unfold keptOf
    rw [List.filter_eq_nil_iff.mpr (fun a ha => by rw [hreq a ha]; exact fun h => by cases h)]
    rfl
  have hmap : mem.map (rowSumD M mem) = (mem.map (fun i => sumOthers M mem i)).map DVal.val := by
    rw [List.map_map]
    apply List.map_congr_left
    intro i hi
    show rowSumD M mem i = DVal.val (sumOthers M mem i)
    rw [rowSumD_val (hfin i hi), sum_eq_sumOthers hnd hi (hdiag i hi)]
  rcases hmem2 : mem with _ | ⟨a, tail⟩
  · exact absurd hmem2 (by rw [hmem2] at hne; exact fun _ => hne rfl)
  · rcases tail with _ | ⟨b, rest⟩
    · -- singleton cluster
      subst hmem2
      have hmed : medoidIndex M [a] = a := rfl
      rw [hmed] at hkept ⊢
      refine ⟨hkept, List.mem_singleton_self a, ?_, ?_⟩
      · intro j hj
        rcases List.mem_singleton.mp hj with rfl
        exact le_refl _
      · intro j hj _
        rcases List.mem_singleton.mp hj with rfl
        exact le_refl _
    · -- at least two members
      subst hmem2
      set mm := a :: b :: rest with hmm
      have hmed : medoidIndex M mm = mm.getD (argminD (mm.map (rowSumD M mm))) 0 := rfl
      set Qs := mm.map (fun i => sumOthers M mm i) with hQs
      have hQne : Qs ≠ [] := by simp [hQs, hmm]
      have hQlen : Qs.length = mm.length := by simp [hQs]
      obtain ⟨hk, hmin, hstrict⟩ := argminD_spec Qs hQne
      set k := argminD (Qs.map DVal.val) with hkdef
      have hmid : medoidIndex M mm = mm.getD k 0 := by
        rw [hmed, hmap, ← hkdef]
      have hklen : k < mm.length := by rw [← hQlen]; exact hk
      have hmmem : mm.getD k 0 ∈ mm := by
        rw [List.getD_eq_getElem mm 0 hklen]
        exact List.getElem_mem hklen
      have hQget : ∀ m, (hm : m < mm.length) → Qs.getD m 0 = sumOthers M mm (mm.getD m 0) := by
        intro m hm
        rw [List.getD_eq_getElem Qs 0 (by rw [hQlen]; exact hm),
          List.getD_eq_getElem mm 0 hm]
        simp [hQs]
      refine ⟨hkept, by rw [hmid]; exact hmmem, ?_, ?_⟩
      · intro j hj
        rcases List.mem_iff_getElem.mp hj with ⟨m, hm, rfl⟩
        rw [hmid, ← hQget k hklen, ← List.getD_eq_getElem mm 0 hm, ← hQget m hm]
        exact hmin _ (by rw [List.getD_eq_getElem Qs 0 (by rw [hQlen]; exact hm)]; exact List.getElem_mem _)
      · intro j hj hje
        rcases List.mem_iff_getElem.mp hj with ⟨m, hm, rfl⟩
        rw [hmid]
        rw [hmid, ← hQget k hklen, ← List.getD_eq_getElem mm 0 hm, ← hQget m hm] at hje
        have hmk : ¬ m < k := by
          intro hlt
          exact absurd hje (ne_of_gt (hstrict m hlt))
        rw [← List.getD_eq_getElem mm 0 hm]
        exact sorted_getD_le hsorted hklen hm (Nat.le_of_not_lt hmk)

/-- Witness for C6 at a concrete run: the 3-member cluster of `Mex9` retains
exactly its medoid, member 1. -/
theorem C6_medoid_rule_witness :
    keptOf Mex9 (fun _ => false) [0, 1, 2] = [medoidIndex Mex9 [0, 1, 2]]
    ∧ medoidIndex Mex9 [0, 1, 2] ∈ [0, 1, 2] := by
  have h := C6_medoid_rule (linkage .average 3 (symQ Mex9)) 4 ["a", "b", "c"] Mex9
    (fun _ => false) (cutLabels 3 (linkage .average 3 (symQ Mex9)) 4 0) [0, 1, 2]
    (by with_unfolding_all decide) (by decide)
    (by intro i hi j hj
        fin_cases hi <;> fin_cases hj <;>
          first
          | exact ⟨0, by with_unfolding_all decide⟩
          | exact ⟨1, by with_unfolding_all decide⟩
          | exact ⟨4, by with_unfolding_all decide⟩)
    (by intro i hi; fin_cases hi <;> with_unfolding_all decide)
  exact ⟨h.1, h.2.1⟩

/-! ### C3: the threshold search -/

/-- C3 is refuted at a concrete input: with distances 1, 5/2, 7/2, 8, 9, 10 and
`--max-threshold 3.2`, the run returns threshold 7/2, although the sentinel
candidate 3.200001 (list position 6, after 10) is feasible (selection size
2 ≤ target 2) and smaller than 7/2 — so the scan is not in ascending order and
the returned height is not the smallest feasible candidate. -/
theorem C3_counterexample :
    chosenOf (runMain namesEx4 Mex4 [] "P" 2 .average (some (16 / 5))) = 7 / 2
    ∧ (candidateList Mex4 4 (some (16 / 5))).length = 7
    ∧ ((candidateList Mex4 4 (some (16 / 5))).getD 6 0).num = 3200001
    ∧ ((candidateList Mex4 4 (some (16 / 5))).getD 6 0).den = 1000000
    ∧ fex4 ((candidateList Mex4 4 (some (16 / 5))).getD 6 0) = 2
    ∧ (candidateList Mex4 4 (some (16 / 5))).getD 6 0 < 7 / 2
    ∧ ¬List.Sorted (· ≤ ·) (candidateList Mex4 4 (some (16 / 5))) := by
  refine ⟨?_, ?_, ?_, ?_, ?_, ?_, ?_⟩ <;> with_unfolding_all decide

theorem firstFeasible_some {f : ℚ → ℕ} {target : ℤ} :
    ∀ {l : List ℚ} {c : ℚ}, firstFeasible f target l = some c →
      (f c : ℤ) ≤ target ∧ ∃ pre suf, l = pre ++ c :: suf
        ∧ ∀ x ∈ pre, target < (f x : ℤ) := by
  intro l
  induction l with
  | nil => intro c h; cases h
  | cons a rest ih =>
      intro c h
      unfold firstFeasible at h
      by_cases ha : ((f a : ℤ)) ≤ target
      · rw [if_pos ha] at h
        cases h
        exact ⟨ha, [], rest, rfl, by simp⟩
      · rw [if_neg ha] at h
        obtain ⟨hc, pre, suf, rfl, hpre⟩ := ih h
        refine ⟨hc, a :: pre, suf, rfl, ?_⟩
        intro x hx
        rcases List.mem_cons.mp hx with rfl | hx'
        · exact lt_of_not_le ha
        · exact hpre x hx'

theorem chosenThreshold_of_some {f : ℚ → ℕ} {target : ℤ} {l : List ℚ} {c : ℚ}
    (h : firstFeasible f target l = some c) : chosenThreshold f target l = c := by
  unfold chosenThreshold
  rw [h]

theorem chosenThreshold_of_none {f : ℚ → ℕ} {target : ℤ} {l : List ℚ}
    (h : firstFeasible f target l = none) :
    chosenThreshold f target l = (l.getLast?).getD 0 := by
  unfold chosenThreshold
  rw [h]

theorem candidateList_sorted_none (M : Mat) (n : ℕ) :
    List.Sorted (· ≤ ·) (candidateList M n none) := by
  unfold candidateList
  rw [List.Sorted, List.pairwise_append]
  refine ⟨?_, List.pairwise_singleton _ _, ?_⟩
  · split
    · exact List.pairwise_singleton _ _
    · exact (sorted_lt_sortedUnique _).imp le_of_lt
  · intro a ha b hb
    rcases List.mem_singleton.mp hb with rfl
    calc a ≤ qmax (if sortedUnique (posVals (condensedList M n)) = []
              then [(0 : ℚ)] else sortedUnique (posVals (condensedList M n))) := le_qmax ha
    _ ≤ _ := le_add_of_nonneg_right (by norm_num)

theorem first_feasible_is_least {f : ℚ → ℕ} {target : ℤ} {l : List ℚ} {c : ℚ}
    (hs : List.Sorted (· ≤ ·) l) (h : firstFeasible f target l = some c) :
    ∀ x ∈ l, (f x : ℤ) ≤ target → c ≤ x := by
  obtain ⟨hc, pre, suf, rfl, hpre⟩ := firstFeasible_some h
  intro x hx hxf
  rcases List.mem_append.mp hx with hx | hx
  · exact absurd hxf (not_le.mpr (hpre x hx))
  · rcases List.mem_cons.mp hx with rfl | hx'
    · exact le_refl x
    · exact (List.pairwise_cons.mp (List.pairwise_append.mp hs).2.1).1 x hx'

/-- C3 (amended): the scan evaluates the candidates in list order — the sorted
positive distances followed by the sentinel — stopping at the first feasible
one (every earlier candidate has selection size above the target), with the
fallback to the last candidate when none is feasible; when no `max_threshold`
is supplied the candidate list is ascending, and the returned height is then
also the smallest feasible candidate height. -/
theorem C3_threshold_search (names : List String) (M : Mat) (required : ℕ → Bool)
    (Z : List (ℕ × ℕ × ℚ)) (target : ℤ) (mt : Option ℚ) :
    (∀ c, firstFeasible (fun c => (selectAtThreshold Z c names M required).1.length) target
          (candidateList M names.length mt) = some c →
        chosenThreshold (fun c => (selectAtThreshold Z c names M required).1.length) target
            (candidateList M names.length mt) = c
        ∧ ((selectAtThreshold Z c names M required).1.length : ℤ) ≤ target
        ∧ ∃ pre suf, candidateList M names.length mt = pre ++ c :: suf
            ∧ ∀ x ∈ pre, target < ((selectAtThreshold Z x names M required).1.length : ℤ))
    ∧ (firstFeasible (fun c => (selectAtThreshold Z c names M required).1.length) target
          (candidateList M names.length mt) = none →
        chosenThreshold (fun c => (selectAtThreshold Z c names M required).1.length) target
            (candidateList M names.length mt)
          = ((candidateList M names.length mt).getLast?).getD 0)
    ∧ (mt = none → List.Sorted (· ≤ ·) (candidateList M names.length mt))
    ∧ (mt = none →
        ∀ c, firstFeasible (fun c => (selectAtThreshold Z c names M required).1.length)
            target (candidateList M names.length mt) = some c →
          ∀ x ∈ candidateList M names.length mt,
            ((selectAtThreshold Z x names M required).1.length : ℤ) ≤ target → c ≤ x) := by
  refine ⟨?_, ?_, ?_, ?_⟩
  · intro c h
    obtain ⟨hc, pre, suf, he, hpre⟩ := firstFeasible_some h
    exact ⟨chosenThreshold_of_some h, hc, pre, suf, he, hpre⟩
  · exact chosenThreshold_of_none
  · intro hmt
    rw [hmt]
    exact candidateList_sorted_none M names.length
  · intro hmt c h
    rw [hmt] at h ⊢
    exact first_feasible_is_least (candidateList_sorted_none M names.length) h

/-- Witness for the amended C3 at a concrete input (no `max_threshold`): the
chosen height 3 is the least feasible candidate. -/
theorem C3_threshold_search_witness :
    ∀ x ∈ candidateList Mex3 3 none,
      ((selectAtThreshold (linkage .average 3 (symQ Mex3)) x ["a", "b", "c"] Mex3
          (requiredB ["a", "b", "c"] [] "P")).1.length : ℤ) ≤ 1 → (3 : ℚ) ≤ x :=
  (C3_threshold_search ["a", "b", "c"] Mex3 (requiredB ["a", "b", "c"] [] "P")
      (linkage .average 3 (symQ Mex3)) 1 none).2.2.2 rfl 3 (by with_unfolding_all decide)

/-! ### C5 machinery, part 1: the accumulating passes and stagewise labels -/

theorem smAux_append (n : ℕ) (l1 l2 : List (ℕ × ℕ × ℚ)) :
    ∀ acc, smAux n (l1 ++ l2) acc = smAux n l2 (smAux n l1 acc) := by
  induction l1 with
  | nil => intro acc; rfl
  | cons s rest ih => intro acc; exact ih (acc ++ [smVal n acc s])

theorem smAux_length (n : ℕ) : ∀ (l : List (ℕ × ℕ × ℚ)) (acc : List ℚ),
    (smAux n l acc).length = acc.length + l.length := by
  intro l
  induction l with
  | nil => intro acc; simp [smAux]
  | cons s rest ih =>
      intro acc
      rw [smAux, ih]
      simp
      omega

theorem smAux_extend (n : ℕ) : ∀ (l : List (ℕ × ℕ × ℚ)) (acc : List ℚ),
    ∃ ext, smAux n l acc = acc ++ ext := by
  intro l
  induction l with
  | nil => intro acc; exact ⟨[], by simp [smAux]⟩
  | cons s rest ih =>
      intro acc
      obtain ⟨ext, he⟩ := ih (acc ++ [smVal n acc s])
      exact ⟨smVal n acc s :: ext, by rw [smAux, he, List.append_assoc]; rfl⟩

theorem smOf_length (n : ℕ) (Z : List (ℕ × ℕ × ℚ)) : (smOf n Z).length = Z.length := by
  rw [smOf, smAux_length]
  simp

theorem smOf_take (n : ℕ) (Z : List (ℕ × ℕ × ℚ)) (k : ℕ) :
    smOf n (Z.take k) = (smOf n Z).take k := by
  by_cases hk : k ≤ Z.length
  · have h1 : smOf n Z = smAux n (Z.drop k) (smOf n (Z.take k)) := by
      rw [smOf, smOf, ← smAux_append, List.take_append_drop]
    obtain ⟨ext, he⟩ := smAux_extend n (Z.drop k) (smOf n (Z.take k))
    rw [h1, he]
    have hlen : (smOf n (Z.take k)).length = k := by
      rw [smOf_length, List.length_take]
      omega
    exact (List.take_left' hlen).symm
  · rw [List.take_of_length_le (by omega), List.take_of_length_le (by rw [smOf_length]; omega)]

theorem getD_take {α : Type} (l : List α) (k m : ℕ) (d : α) (h : m < k) :
    (l.take k).getD m d = l.getD m d := by
  by_cases hm : m < l.length
  · rw [List.getD_eq_getElem _ d (by rw [List.length_take]; omega),
      List.getD_eq_getElem _ d hm]
    exact List.getElem_take _
  · rw [List.getD_eq_default _ d (by rw [List.length_take]; omega),
      List.getD_eq_default _ d (by omega)]

theorem smOf_getD (n : ℕ) (Z : List (ℕ × ℕ × ℚ)) (k : ℕ) (hk : k < Z.length) :
    (smOf n Z).getD k 0 = smVal n ((smOf n Z).take k) (Z.getD k (0, 0, 0)) := by
  have h1 : Z.take (k + 1) = Z.take k ++ [Z.getD k (0, 0, 0)] := by
    rw [List.take_succ]
    congr 1
    rw [List.getD_eq_getElem _ _ hk]
    simp [hk]
  have h2 : smOf n (Z.take (k + 1)) = smOf n (Z.take k) ++ [smVal n (smOf n (Z.take k)) (Z.getD k (0, 0, 0))] := by
    rw [h1, smOf, smAux_append]
    rfl
  have h3 := smOf_take n Z (k + 1)
  rw [h2, smOf_take n Z k] at h3
  have hlen : ((smOf n Z).take k).length = k := by
    rw [List.length_take, smOf_length]
    omega
  have h4 : ((smOf n Z).take (k + 1)).getD k 0 = (smOf n Z).getD k 0 :=
    getD_take _ _ _ _ (by omega)
  rw [← h3] at h4
  rw [← h4, List.getD_append_right _ _ _ _ (le_of_eq hlen)]
  simp [hlen]

theorem memAux_append (n : ℕ) (l1 l2 : List (ℕ × ℕ × ℚ)) :
    ∀ acc, memAux n (l1 ++ l2) acc = memAux n l2 (memAux n l1 acc) := by
  induction l1 with
  | nil => intro acc; rfl
  | cons s rest ih => intro acc; exact ih (acc ++ [memVal n acc s])

theorem memAux_length (n : ℕ) : ∀ (l : List (ℕ × ℕ × ℚ)) (acc : List (Finset ℕ)),
    (memAux n l acc).length = acc.length + l.length := by
  intro l
  induction l with
  | nil => intro acc; simp [memAux]
  | cons s rest ih =>
      intro acc
      rw [memAux, ih]
      simp
      omega

theorem memAux_extend (n : ℕ) : ∀ (l : List (ℕ × ℕ × ℚ)) (acc : List (Finset ℕ)),
    ∃ ext, memAux n l acc = acc ++ ext := by
  intro l
  induction l with
  | nil => intro acc; exact ⟨[], by simp [memAux]⟩
  | cons s rest ih =>
      intro acc
      obtain ⟨ext, he⟩ := ih (acc ++ [memVal n acc s])
      exact ⟨memVal n acc s :: ext, by rw [memAux, he, List.append_assoc]; rfl⟩

theorem memOf_length (n : ℕ) (Z : List (ℕ × ℕ × ℚ)) : (memOf n Z).length = Z.length := by
  rw [memOf, memAux_length]
  simp

theorem memOf_take (n : ℕ) (Z : List (ℕ × ℕ × ℚ)) (k : ℕ) :
    memOf n (Z.take k) = (memOf n Z).take k := by
  by_cases hk : k ≤ Z.length
  · have h1 : memOf n Z = memAux n (Z.drop k) (memOf n (Z.take k)) := by
      rw [memOf, memOf, ← memAux_append, List.take_append_drop]
    obtain ⟨ext, he⟩ := memAux_extend n (Z.drop k) (memOf n (Z.take k))
    rw [h1, he]
    have hlen : (memOf n (Z.take k)).length = k := by
      rw [memOf_length, List.length_take]
      omega
    exact (List.take_left' hlen).symm
  · rw [List.take_of_length_le (by omega), List.take_of_length_le (by rw [memOf_length]; omega)]

theorem memOf_getD (n : ℕ) (Z : List (ℕ × ℕ × ℚ)) (k : ℕ) (hk : k < Z.length) :
    (memOf n Z).getD k ∅ = memVal n ((memOf n Z).take k) (Z.getD k (0, 0, 0)) := by
  have h1 : Z.take (k + 1) = Z.take k ++ [Z.getD k (0, 0, 0)] := by
    rw [List.take_succ]
    congr 1
    rw [List.getD_eq_getElem _ _ hk]
    simp [hk]
  have h2 : memOf n (Z.take (k + 1)) = memOf n (Z.take k) ++ [memVal n (memOf n (Z.take k)) (Z.getD k (0, 0, 0))] := by
    rw [h1, memOf, memAux_append]
    rfl
  have h3 := memOf_take n Z (k + 1)
  rw [h2, memOf_take n Z k] at h3
  have hlen : ((memOf n Z).take k).length = k := by
    rw [List.length_take, memOf_length]
    omega
  have h4 : ((memOf n Z).take (k + 1)).getD k ∅ = (memOf n Z).getD k ∅ :=
    getD_take _ _ _ _ (by omega)
  rw [← h3] at h4
  rw [← h4, List.getD_append_right _ _ _ _ (le_of_eq hlen)]
  simp [hlen]

theorem cutGo_append (n : ℕ) (t : ℚ) (l1 l2 : List (ℕ × ℕ × ℚ)) :
    ∀ acc L, cutGo n t (l1 ++ l2) acc L = cutGo n t l2 (smAux n l1 acc) (cutGo n t l1 acc L) := by
  induction l1 with
  | nil => intro acc L; rfl
  | cons s rest ih =>
      intro acc L
      rw [List.cons_append, cutGo, ih, smAux]
      rfl

theorem labelsAt_zero (n : ℕ) (Z : List (ℕ × ℕ × ℚ)) (t : ℚ) :
    labelsAt n Z t 0 = id := rfl

theorem labelsAt_succ (n : ℕ) (Z : List (ℕ × ℕ × ℚ)) (t : ℚ) (k : ℕ) (hk : k < Z.length) :
    labelsAt n Z t (k + 1)
      = if (smOf n Z).getD k 0 ≤ t
          then mergeL n k (chA Z k) (chB Z k) (labelsAt n Z t k)
          else labelsAt n Z t k := by
  have h1 : Z.take (k + 1) = Z.take k ++ [Z.getD k (0, 0, 0)] := by
    rw [List.take_succ]
    congr 1
    rw [List.getD_eq_getElem _ _ hk]
    simp [hk]
  have hacc : smAux n (Z.take k) [] = (smOf n Z).take k := smOf_take n Z k
  have hlen : ((smOf n Z).take k).length = k := by
    rw [List.length_take, smOf_length]
    omega
  rw [labelsAt, h1, cutGo_append, hacc]
  show cutGo n t [Z.getD k (0, 0, 0)] ((smOf n Z).take k) (labelsAt n Z t k) = _
  rw [cutGo, cutGo, hlen, ← smOf_getD n Z k hk]
  rfl

theorem cutLabels_eq_labelsAt (n : ℕ) (Z : List (ℕ × ℕ × ℚ)) (t : ℚ) :
    cutLabels n Z t = labelsAt n Z t Z.length := by
  rw [labelsAt, List.take_length]
  rfl

/-! ### C5 machinery, part 2: availability invariants and refinement -/

theorem availC_lt {n : ℕ} {Z : List (ℕ × ℕ × ℚ)} {t : ℚ} {k c : ℕ}
    (h : availC n Z t k c) : c < n + k := by
  rcases h.1 with hc | ⟨h1, h2, h3⟩ <;> omega

theorem availC_pred {n : ℕ} {Z : List (ℕ × ℕ × ℚ)} {t : ℚ} {k c : ℕ}
    (h : availC n Z t (k + 1) c) (hne : c ≠ n + k) : availC n Z t k c := by
  obtain ⟨hformed, hcons⟩ := h
  constructor
  · rcases hformed with hc | ⟨h1, h2, h3⟩
    · exact Or.inl hc
    · refine Or.inr ⟨h1, ?_, h3⟩
      rcases Nat.lt_succ_iff_lt_or_eq.mp h2 with h | h
      · exact h
      · omega
  · intro m hm happ
    exact hcons m (by omega) happ

theorem availC_succ_ne {n : ℕ} {Z : List (ℕ × ℕ × ℚ)} {t : ℚ} {k c : ℕ}
    (hnapp : ¬appP n Z t k) (h : availC n Z t (k + 1) c) : c ≠ n + k := by
  intro he
  rcases h.1 with hc | ⟨h1, h2, h3⟩
  · omega
  · rw [he] at h3
    simp only [Nat.add_sub_cancel_left] at h3
    exact hnapp h3

theorem membOf_leaf {n : ℕ} {Z : List (ℕ × ℕ × ℚ)} {c : ℕ} (h : c < n) :
    membOf n Z c = {c} := by
  unfold membOf
  rw [if_pos h]

theorem getD_default_eq {α : Type} (l : List α) (m : ℕ) (d d' : α) (h : m < l.length) :
    l.getD m d = l.getD m d' := by
  rw [List.getD_eq_getElem _ _ h, List.getD_eq_getElem _ _ h]

theorem memVal_expand_at (n : ℕ) (acc : List (Finset ℕ)) (Z : List (ℕ × ℕ × ℚ)) (k : ℕ) :
    memVal n acc (Z.getD k (0, 0, 0))
      = (if chA Z k < n then {chA Z k} else acc.getD (chA Z k - n) ∅)
        ∪ (if chB Z k < n then {chB Z k} else acc.getD (chB Z k - n) ∅) := rfl

theorem smVal_expand_at (n : ℕ) (acc : List ℚ) (Z : List (ℕ × ℕ × ℚ)) (k : ℕ) :
    smVal n acc (Z.getD k (0, 0, 0))
      = max (chH Z k)
          (max (if chA Z k < n then chH Z k else acc.getD (chA Z k - n) (chH Z k))
            (if chB Z k < n then chH Z k else acc.getD (chB Z k - n) (chH Z k))) := rfl

theorem membOf_merge {n : ℕ} {Z : List (ℕ × ℕ × ℚ)} (hwf : WF n Z) {k : ℕ}
    (hk : k < Z.length) :
    membOf n Z (n + k) = membOf n Z (chA Z k) ∪ membOf n Z (chB Z k) := by
  obtain ⟨ha1, hb1, -⟩ := hwf.1 k hk
  unfold membOf
  rw [if_neg (by omega), show n + k - n = k from by omega, memOf_getD n Z k hk,
    memVal_expand_at]
  congr 1
  · by_cases hc : chA Z k < n
    · rw [if_pos hc, if_pos hc]
    · rw [if_neg hc, if_neg hc]
      exact getD_take _ _ _ _ (by omega)
  · by_cases hc : chB Z k < n
    · rw [if_pos hc, if_pos hc]
    · rw [if_neg hc, if_neg hc]
      exact getD_take _ _ _ _ (by omega)

theorem smVal_ge_la {n : ℕ} {Z : List (ℕ × ℕ × ℚ)} {k : ℕ} (hk : k < Z.length)
    (ha : ¬chA Z k < n) (hbnd : chA Z k < n + k) :
    (smOf n Z).getD (chA Z k - n) 0 ≤ (smOf n Z).getD k 0 := by
  rw [smOf_getD n Z k hk, smVal_expand_at]
  have h1 : (if chA Z k < n then chH Z k
      else ((smOf n Z).take k).getD (chA Z k - n) (chH Z k))
      = (smOf n Z).getD (chA Z k - n) 0 := by
    rw [if_neg ha, getD_take _ _ _ _ (by omega)]
    exact getD_default_eq (smOf n Z) (chA Z k - n) _ 0 (by rw [smOf_length]; omega)
  rw [h1]
  exact le_trans (le_max_left _ _) (le_max_right _ _)

theorem smVal_ge_lb {n : ℕ} {Z : List (ℕ × ℕ × ℚ)} {k : ℕ} (hk : k < Z.length)
    (hb : ¬chB Z k < n) (hbnd : chB Z k < n + k) :
    (smOf n Z).getD (chB Z k - n) 0 ≤ (smOf n Z).getD k 0 := by
  rw [smOf_getD n Z k hk, smVal_expand_at]
  have h1 : (if chB Z k < n then chH Z k
      else ((smOf n Z).take k).getD (chB Z k - n) (chH Z k))
      = (smOf n Z).getD (chB Z k - n) 0 := by
    rw [if_neg hb, getD_take _ _ _ _ (by omega)]
    exact getD_default_eq (smOf n Z) (chB Z k - n) _ 0 (by rw [smOf_length]; omega)
  rw [h1]
  exact le_trans (le_max_right _ _) (le_max_right _ _)

theorem child_avail_a {n : ℕ} {Z : List (ℕ × ℕ × ℚ)} {t : ℚ} {k : ℕ} (hwf : WF n Z)
    (hk : appP n Z t k) : availC n Z t k (chA Z k) := by
  obtain ⟨hklen, hsm⟩ := hk
  obtain ⟨ha1, hb1, hab⟩ := hwf.1 k hklen
  constructor
  · by_cases ha : chA Z k < n
    · exact Or.inl ha
    · exact Or.inr ⟨by omega, by omega,
        ⟨by omega, le_trans (smVal_ge_la hklen ha ha1) hsm⟩⟩
  · intro m hm happ
    have h := hwf.2 m k happ.1 hklen hm
    exact ⟨Ne.symm h.1, Ne.symm h.2.2.1⟩

theorem child_avail_b {n : ℕ} {Z : List (ℕ × ℕ × ℚ)} {t : ℚ} {k : ℕ} (hwf : WF n Z)
    (hk : appP n Z t k) : availC n Z t k (chB Z k) := by
  obtain ⟨hklen, hsm⟩ := hk
  obtain ⟨ha1, hb1, hab⟩ := hwf.1 k hklen
  constructor
  · by_cases hb : chB Z k < n
    · exact Or.inl hb
    · exact Or.inr ⟨by omega, by omega,
        ⟨by omega, le_trans (smVal_ge_lb hklen hb hb1) hsm⟩⟩
  · intro m hm happ
    have h := hwf.2 m k happ.1 hklen hm
    exact ⟨Ne.symm h.2.1, Ne.symm h.2.2.2⟩

theorem okL_zero (n : ℕ) (Z : List (ℕ × ℕ × ℚ)) (t : ℚ) : okL n Z t 0 id := by
  intro i hi
  refine ⟨⟨Or.inl hi, fun m hm _ => absurd hm (Nat.not_lt_zero m)⟩, ?_⟩
  show i ∈ membOf n Z i
  rw [membOf_leaf hi]
  exact Finset.mem_singleton_self i

theorem okL_succ {n : ℕ} {Z : List (ℕ × ℕ × ℚ)} {t : ℚ} (hwf : WF n Z) {k : ℕ}
    (hk : k < Z.length) (ih : okL n Z t k (labelsAt n Z t k)) :
    okL n Z t (k + 1) (labelsAt n Z t (k + 1)) := by
  intro i hi
  obtain ⟨⟨hformed, hcons⟩, hmemb⟩ := ih i hi
  obtain ⟨ha1, hb1, hab⟩ := hwf.1 k hk
  rw [labelsAt_succ n Z t k hk]
  by_cases happ : (smOf n Z).getD k 0 ≤ t
  · rw [if_pos happ]
    unfold mergeL
    by_cases hcase : labelsAt n Z t k i = chA Z k ∨ labelsAt n Z t k i = chB Z k
    · rw [if_pos hcase]
      refine ⟨⟨Or.inr ⟨by omega, by omega, by rw [show n + k - n = k from by omega]; exact ⟨hk, happ⟩⟩, ?_⟩, ?_⟩
      · intro m hm happm
        rcases Nat.lt_succ_iff_lt_or_eq.mp hm with h | h
        · obtain ⟨hA, hB, -⟩ := hwf.1 m happm.1
          omega
        · subst h
          omega
      · rw [membOf_merge hwf hk]
        rcases hcase with h | h
        · exact Finset.mem_union_left _ (h ▸ hmemb)
        · exact Finset.mem_union_right _ (h ▸ hmemb)
    · rw [if_neg hcase]
      push_neg at hcase
      refine ⟨⟨?_, ?_⟩, hmemb⟩
      · rcases hformed with hc | ⟨h1, h2, h3⟩
        · exact Or.inl hc
        · exact Or.inr ⟨h1, by omega, h3⟩
      · intro m hm happm
        rcases Nat.lt_succ_iff_lt_or_eq.mp hm with h | h
        · exact hcons m h happm
        · subst h
          exact hcase
  · rw [if_neg happ]
    refine ⟨⟨?_, ?_⟩, hmemb⟩
    · rcases hformed with hc | ⟨h1, h2, h3⟩
      · exact Or.inl hc
      · exact Or.inr ⟨h1, by omega, h3⟩
    · intro m hm happm
      rcases Nat.lt_succ_iff_lt_or_eq.mp hm with h | h
      · exact hcons m h happm
      · subst h
        exact absurd happm.2 happ

theorem okL_labelsAt {n : ℕ} {Z : List (ℕ × ℕ × ℚ)} {t : ℚ} (hwf : WF n Z) :
    ∀ k, k ≤ Z.length → okL n Z t k (labelsAt n Z t k) := by
  intro k
  induction k with
  | zero => intro _; exact okL_zero n Z t
  | succ k ih => intro hk; exact okL_succ hwf (by omega) (ih (by omega))

theorem partInv_zero (n : ℕ) (Z : List (ℕ × ℕ × ℚ)) (t : ℚ) : partInv n Z t 0 := by
  intro i hi c c' hc hc' hmc hmc'
  have h1 : c < n := by
    rcases hc.1 with h | ⟨_, h2, _⟩
    · exact h
    · omega
  have h2 : c' < n := by
    rcases hc'.1 with h | ⟨_, h2, _⟩
    · exact h
    · omega
  rw [membOf_leaf h1, Finset.mem_singleton] at hmc
  rw [membOf_leaf h2, Finset.mem_singleton] at hmc'
  omega

theorem partInv_succ {n : ℕ} {Z : List (ℕ × ℕ × ℚ)} {t : ℚ} (hwf : WF n Z) {k : ℕ}
    (hk : k < Z.length) (ih : partInv n Z t k) : partInv n Z t (k + 1) := by
  by_cases happ : appP n Z t k
  · intro i hi c c' hc hc' hmc hmc'
    by_cases hcnk : c = n + k <;> by_cases hc'nk : c' = n + k
    · rw [hcnk, hc'nk]
    · exfalso
      have hc'k : availC n Z t k c' := availC_pred hc' hc'nk
      have hcons' := hc'.2 k (by omega) happ
      rw [hcnk, membOf_merge hwf hk] at hmc
      rcases Finset.mem_union.mp hmc with h | h
      · exact hcons'.1 (ih i hi c' (chA Z k) hc'k (child_avail_a hwf happ) hmc' h)
      · exact hcons'.2 (ih i hi c' (chB Z k) hc'k (child_avail_b hwf happ) hmc' h)
    · exfalso
      have hck : availC n Z t k c := availC_pred hc hcnk
      have hcons := hc.2 k (by omega) happ
      rw [hc'nk, membOf_merge hwf hk] at hmc'
      rcases Finset.mem_union.mp hmc' with h | h
      · exact hcons.1 (ih i hi c (chA Z k) hck (child_avail_a hwf happ) hmc h)
      · exact hcons.2 (ih i hi c (chB Z k) hck (child_avail_b hwf happ) hmc h)
    · exact ih i hi c c' (availC_pred hc hcnk) (availC_pred hc' hc'nk) hmc hmc'
  · intro i hi c c' hc hc' hmc hmc'
    exact ih i hi c c' (availC_pred hc (availC_succ_ne happ hc))
      (availC_pred hc' (availC_succ_ne happ hc')) hmc hmc'

theorem partInv_all {n : ℕ} {Z : List (ℕ × ℕ × ℚ)} {t : ℚ} (hwf : WF n Z) :
    ∀ k, k ≤ Z.length → partInv n Z t k := by
  intro k
  induction k with
  | zero => intro _; exact partInv_zero n Z t
  | succ k ih => intro hk; exact partInv_succ hwf (by omega) (ih (by omega))

theorem label_eq_iff_mem {n : ℕ} {Z : List (ℕ × ℕ × ℚ)} {t : ℚ} {k : ℕ} {L : ℕ → ℕ}
    {c : ℕ} (hok : okL n Z t k L) (hpart : partInv n Z t k) (hc : availC n Z t k c)
    {i : ℕ} (hi : i < n) : L i = c ↔ i ∈ membOf n Z c := by
  constructor
  · intro h
    rw [← h]
    exact (hok i hi).2
  · intro h
    exact hpart i hi (L i) c (hok i hi).1 hc (hok i hi).2 h

theorem mergeL_congr {n k a b : ℕ} {L : ℕ → ℕ} {i j : ℕ} (h : L i = L j) :
    mergeL n k a b L i = mergeL n k a b L j := by
  unfold mergeL
  rw [h]

theorem mergeL_eq_cases {n k a b : ℕ} {L : ℕ → ℕ} {i j : ℕ}
    (hbi : L i < n + k) (hbj : L j < n + k)
    (h : mergeL n k a b L i = mergeL n k a b L j) :
    L i = L j ∨ ((L i = a ∨ L i = b) ∧ (L j = a ∨ L j = b)) := by
  unfold mergeL at h
  by_cases hi : L i = a ∨ L i = b <;> by_cases hj : L j = a ∨ L j = b
  · exact Or.inr ⟨hi, hj⟩
  · rw [if_pos hi, if_neg hj] at h
    omega
  · rw [if_neg hi, if_pos hj] at h
    omega
  · rw [if_neg hi, if_neg hj] at h
    exact Or.inl h

theorem labels_refine {n : ℕ} {Z : List (ℕ × ℕ × ℚ)} (hwf : WF n Z) {t t' : ℚ}
    (htt : t ≤ t') :
    ∀ k, k ≤ Z.length → ∀ i j, i < n → j < n →
      labelsAt n Z t k i = labelsAt n Z t k j →
      labelsAt n Z t' k i = labelsAt n Z t' k j := by
  intro k
  induction k with
  | zero => intro _ i j _ _ h; exact h
  | succ k ih =>
      intro hk i j hi hj h
      have hklen : k < Z.length := by omega
      rw [labelsAt_succ n Z t' k hklen]
      rw [labelsAt_succ n Z t k hklen] at h
      by_cases happ : (smOf n Z).getD k 0 ≤ t
      · have happ' : (smOf n Z).getD k 0 ≤ t' := le_trans happ htt
        rw [if_pos happ'] 
        rw [if_pos happ] at h
        have hokt := okL_labelsAt hwf (t := t) k (by omega)
        have hokt' := okL_labelsAt hwf (t := t') k (by omega)
        have hpartt := partInv_all hwf (t := t) k (by omega)
        have hpartt' := partInv_all hwf (t := t') k (by omega)
        have hbi := availC_lt (hokt i hi).1
        have hbj := availC_lt (hokt j hj).1
        rcases mergeL_eq_cases hbi hbj h with heq | ⟨hca, hcb⟩
        · exact mergeL_congr (ih (by omega) i j hi hj heq)
        · have happk : appP n Z t k := ⟨hklen, happ⟩
          have happk' : appP n Z t' k := ⟨hklen, happ'⟩
          have hta : ∀ x, x < n → labelsAt n Z t k x = chA Z k →
              labelsAt n Z t' k x = chA Z k := by
            intro x hx hxa
            exact (label_eq_iff_mem hokt' hpartt' (child_avail_a hwf happk') hx).mpr
              ((label_eq_iff_mem hokt hpartt (child_avail_a hwf happk) hx).mp hxa)
          have htb : ∀ x, x < n → labelsAt n Z t k x = chB Z k →
              labelsAt n Z t' k x = chB Z k := by
            intro x hx hxb
            exact (label_eq_iff_mem hokt' hpartt' (child_avail_b hwf happk') hx).mpr
              ((label_eq_iff_mem hokt hpartt (child_avail_b hwf happk) hx).mp hxb)
          have hi' : labelsAt n Z t' k i = chA Z k ∨ labelsAt n Z t' k i = chB Z k := by
            rcases hca with hc | hc
            · exact Or.inl (hta i hi hc)
            · exact Or.inr (htb i hi hc)
          have hj' : labelsAt n Z t' k j = chA Z k ∨ labelsAt n Z t' k j = chB Z k := by
            rcases hcb with hc | hc
            · exact Or.inl (hta j hj hc)
            · exact Or.inr (htb j hj hc)
          unfold mergeL
          rw [if_pos hi', if_pos hj']
      · rw [if_neg happ] at h
        have h' := ih (by omega) i j hi hj h
        by_cases happ' : (smOf n Z).getD k 0 ≤ t'
        · rw [if_pos happ']
          exact mergeL_congr h'
        · rw [if_neg happ']
          exact h'

theorem cutLabels_refine {n : ℕ} {Z : List (ℕ × ℕ × ℚ)} (hwf : WF n Z) {t t' : ℚ}
    (htt : t ≤ t') {i j : ℕ} (hi : i < n) (hj : j < n)
    (h : cutLabels n Z t i = cutLabels n Z t j) :
    cutLabels n Z t' i = cutLabels n Z t' j := by
  rw [cutLabels_eq_labelsAt] at h ⊢
  exact labels_refine hwf htt Z.length (le_refl _) i j hi hj h

/-! ### C5 machinery, part 3: the linkage output is well-formed -/

theorem pairsOf_mem : ∀ {l : List (ℕ × ℕ)} {pq : (ℕ × ℕ) × (ℕ × ℕ)},
    pq ∈ pairsOf l → pq.1 ∈ l ∧ pq.2 ∈ l := by
  intro l
  induction l with
  | nil => intro pq h; cases h
  | cons x rest ih =>
      intro pq h
      rcases List.mem_append.mp h with h | h
      · rcases List.mem_map.mp h with ⟨q, hq, rfl⟩
        exact ⟨List.mem_cons_self _ _, List.mem_cons_of_mem _ hq⟩
      · obtain ⟨h1, h2⟩ := ih h
        exact ⟨List.mem_cons_of_mem _ h1, List.mem_cons_of_mem _ h2⟩

theorem pairsOf_ne : ∀ {l : List (ℕ × ℕ)}, (l.map Prod.fst).Nodup →
    ∀ {pq : (ℕ × ℕ) × (ℕ × ℕ)}, pq ∈ pairsOf l → pq.1.1 ≠ pq.2.1 := by
  intro l
  induction l with
  | nil => intro _ pq h; cases h
  | cons x rest ih =>
      intro hnd pq h
      rw [List.map_cons, List.nodup_cons] at hnd
      rcases List.mem_append.mp h with h | h
      · rcases List.mem_map.mp h with ⟨q, hq, rfl⟩
        intro he
        exact hnd.1 (he ▸ List.mem_map.mpr ⟨q, hq, rfl⟩)
      · exact ih hnd.2 h

theorem minPairGo_mem (d : ℕ → ℕ → ℚ) :
    ∀ (l : List ((ℕ × ℕ) × (ℕ × ℕ))) (best : (ℕ × ℕ) × (ℕ × ℕ)) (bh : ℚ),
      (minPairGo d l best bh).1 = best ∨ (minPairGo d l best bh).1 ∈ l := by
  intro l
  induction l with
  | nil => intro best bh; exact Or.inl rfl
  | cons pq rest ih =>
      intro best bh
      have he : minPairGo d (pq :: rest) best bh
          = if d pq.1.1 pq.2.1 < bh then minPairGo d rest pq (d pq.1.1 pq.2.1)
            else minPairGo d rest best bh := rfl
      rw [he]
      by_cases hlt : d pq.1.1 pq.2.1 < bh
      · rw [if_pos hlt]
        rcases ih pq (d pq.1.1 pq.2.1) with h1 | h1
        · exact Or.inr (by rw [h1]; exact List.mem_cons_self _ _)
        · exact Or.inr (List.mem_cons_of_mem _ h1)
      · rw [if_neg hlt]
        rcases ih best bh with h1 | h1
        · exact Or.inl h1
        · exact Or.inr (List.mem_cons_of_mem _ h1)

theorem minPairOf_spec {d : ℕ → ℕ → ℚ} {active : List (ℕ × ℕ)}
    {pr : ((ℕ × ℕ) × (ℕ × ℕ)) × ℚ} (hnd : (active.map Prod.fst).Nodup)
    (h : minPairOf d active = some pr) :
    pr.1.1 ∈ active ∧ pr.1.2 ∈ active ∧ pr.1.1.1 ≠ pr.1.2.1 := by
  unfold minPairOf at h
  split at h
  · cases h
  · next pq rest heq =>
      cases h
      have hmem : (minPairGo d rest pq (d pq.1.1 pq.2.1)).1 ∈ pairsOf active := by
        rcases minPairGo_mem d rest pq (d pq.1.1 pq.2.1) with h1 | h1
        · rw [h1, heq]
          exact List.mem_cons_self _ _
        · rw [heq]
          exact List.mem_cons_of_mem _ h1
      obtain ⟨h1, h2⟩ := pairsOf_mem hmem
      exact ⟨h1, h2, pairsOf_ne hnd hmem⟩

theorem chA_cons_zero (s : ℕ × ℕ × ℚ) (Z : List (ℕ × ℕ × ℚ)) : chA (s :: Z) 0 = s.1 := rfl

theorem chB_cons_zero (s : ℕ × ℕ × ℚ) (Z : List (ℕ × ℕ × ℚ)) : chB (s :: Z) 0 = s.2.1 := rfl

theorem chA_cons_succ (s : ℕ × ℕ × ℚ) (Z : List (ℕ × ℕ × ℚ)) (m : ℕ) :
    chA (s :: Z) (m + 1) = chA Z m := rfl

theorem chB_cons_succ (s : ℕ × ℕ × ℚ) (Z : List (ℕ × ℕ × ℚ)) (m : ℕ) :
    chB (s :: Z) (m + 1) = chB Z m := rfl

theorem linkGo_wf (meth : LinkMethod) :
    ∀ (fuel : ℕ) (d : ℕ → ℕ → ℚ) (active : List (ℕ × ℕ)) (next : ℕ),
      (active.map Prod.fst).Nodup → (∀ p ∈ active, p.1 < next) →
      (∀ m, m < (linkGo meth fuel active d next).length →
          chA (linkGo meth fuel active d next) m < next + m
          ∧ chB (linkGo meth fuel active d next) m < next + m
          ∧ chA (linkGo meth fuel active d next) m ≠ chB (linkGo meth fuel active d next) m
          ∧ (chA (linkGo meth fuel active d next) m ∈ active.map Prod.fst
              ∨ next ≤ chA (linkGo meth fuel active d next) m)
          ∧ (chB (linkGo meth fuel active d next) m ∈ active.map Prod.fst
              ∨ next ≤ chB (linkGo meth fuel active d next) m))
      ∧ (∀ m m', m < m' → m' < (linkGo meth fuel active d next).length →
          chA (linkGo meth fuel active d next) m ≠ chA (linkGo meth fuel active d next) m'
          ∧ chA (linkGo meth fuel active d next) m ≠ chB (linkGo meth fuel active d next) m'
          ∧ chB (linkGo meth fuel active d next) m ≠ chA (linkGo meth fuel active d next) m'
          ∧ chB (linkGo meth fuel active d next) m
              ≠ chB (linkGo meth fuel active d next) m') := by
  intro fuel
  induction fuel with
  | zero =>
      intro d active next _ _
      exact ⟨fun m hm => absurd hm (by simp [linkGo]), fun m m' _ hm' => absurd hm' (by simp [linkGo])⟩
  | succ fuel ih =>
      intro d active next hnd hbnd
      rcases hmp : minPairOf d active with _ | pr
      · rw [show linkGo meth (fuel + 1) active d next = [] from by rw [linkGo, hmp]]
        exact ⟨fun m hm => absurd hm (by simp), fun m m' _ hm' => absurd hm' (by simp)⟩
      · obtain ⟨hamem, hbmem, habne⟩ := minPairOf_spec hnd hmp
        set a := pr.1.1 with hadef
        set b := pr.1.2 with hbdef
        set rest := active.filter (fun p => decide (p.1 ≠ a.1 ∧ p.1 ≠ b.1)) with hrest
        set active' := rest ++ [(next, a.2 + b.2)] with hact'
        set d' : ℕ → ℕ → ℚ := fun x y =>
            if x = next then lwUpdate meth a.2 b.2 (d a.1 y) (d b.1 y)
            else if y = next then lwUpdate meth a.2 b.2 (d a.1 x) (d b.1 x)
            else d x y with hd'
        have hZ : linkGo meth (fuel + 1) active d next
            = (a.1, b.1, pr.2) :: linkGo meth fuel active' d' (next + 1) := by
          rw [linkGo, hmp]
        have hrest_fst : ∀ x ∈ rest.map Prod.fst, x ∈ active.map Prod.fst ∧ x ≠ a.1 ∧ x ≠ b.1 := by
          intro x hx
          rcases List.mem_map.mp hx with ⟨p, hp, rfl⟩
          rcases List.mem_filter.mp hp with ⟨hp1, hp2⟩
          have hp3 := of_decide_eq_true hp2
          exact ⟨List.mem_map.mpr ⟨p, hp1, rfl⟩, hp3.1, hp3.2⟩
        have hnd' : (active'.map Prod.fst).Nodup := by
          rw [hact', List.map_append]
          rw [List.nodup_append]
          refine ⟨List.Nodup.sublist (List.Sublist.map _ (List.filter_sublist _)) hnd,
            List.nodup_singleton _, ?_⟩
          intro x hx
          rcases (hrest_fst x hx).1 with hx'
          rcases List.mem_map.mp hx' with ⟨p, hp, rfl⟩
          have := hbnd p hp
          simp only [List.map_cons, List.map_nil, List.mem_singleton]
          omega
        have hbnd' : ∀ p ∈ active', p.1 < next + 1 := by
          intro p hp
          rcases List.mem_append.mp hp with hp | hp
          · have := hbnd p (List.mem_of_mem_filter hp)
            omega
          · rcases List.mem_singleton.mp hp with rfl
            omega
        have ihx := ih d' active' (next + 1) hnd' hbnd'
        have hmap : active'.map Prod.fst = rest.map Prod.fst ++ [next] := by
          rw [hact', List.map_append]
          rfl
        have habound : a.1 < next := hbnd a hamem
        have hbbound : b.1 < next := hbnd _ hbmem
        constructor
        · intro m hm
          rcases m with _ | m
          · rw [hZ, chA_cons_zero, chB_cons_zero]
            refine ⟨by simpa using habound, by simpa using hbbound, habne, ?_, ?_⟩
            · exact Or.inl (List.mem_map.mpr ⟨a, hamem, rfl⟩)
            · exact Or.inl (List.mem_map.mpr ⟨b, hbmem, rfl⟩)
          · rw [hZ] at hm
            simp only [List.length_cons] at hm
            have hm' : m < (linkGo meth fuel active' d' (next + 1)).length := by omega
            obtain ⟨h1, h2, h3, h4, h5⟩ := ihx.1 m hm'
            rw [hZ, chA_cons_succ, chB_cons_succ]
            refine ⟨by omega, by omega, h3, ?_, ?_⟩
            · rcases h4 with h4 | h4
              · rw [hmap] at h4
                rcases List.mem_append.mp h4 with h4 | h4
                · exact Or.inl (hrest_fst _ h4).1
                · exact Or.inr (le_of_eq (List.mem_singleton.mp h4).symm)
              · exact Or.inr (by omega)
            · rcases h5 with h5 | h5
              · rw [hmap] at h5
                rcases List.mem_append.mp h5 with h5 | h5
                · exact Or.inl (hrest_fst _ h5).1
                · exact Or.inr (le_of_eq (List.mem_singleton.mp h5).symm)
              · exact Or.inr (by omega)
        · intro m m' hmm hm'
          rcases m' with _ | m'
          · omega
          · rw [hZ] at hm'
            simp only [List.length_cons] at hm'
            have hm'2 : m' < (linkGo meth fuel active' d' (next + 1)).length := by omega
            rcases m with _ | m
            · rw [hZ, chA_cons_zero, chB_cons_zero, chA_cons_succ, chB_cons_succ]
              obtain ⟨-, -, -, h4, h5⟩ := ihx.1 m' hm'2
              have hfacts : ∀ c, (c ∈ active'.map Prod.fst ∨ next + 1 ≤ c) →
                  a.1 ≠ c ∧ b.1 ≠ c := by
                intro c hc
                rcases hc with hc | hc
                · rw [hmap] at hc
                  rcases List.mem_append.mp hc with hc | hc
                  · obtain ⟨-, hca, hcb⟩ := hrest_fst _ hc
                    exact ⟨Ne.symm hca, Ne.symm hcb⟩
                  · rcases List.mem_singleton.mp hc with rfl
                    omega
                · omega
              obtain ⟨hA1, hB1⟩ := hfacts _ h4
              obtain ⟨hA2, hB2⟩ := hfacts _ h5
              exact ⟨hA1, hA2, hB1, hB2⟩
            · rw [hZ, chA_cons_succ, chB_cons_succ, chA_cons_succ, chB_cons_succ]
              exact ihx.2 m m' (by omega) hm'2

theorem linkage_wf (meth : LinkMethod) (n : ℕ) (d : ℕ → ℕ → ℚ) :
    WF n (linkage meth n d) := by
  have hnd : (((List.range n).map (fun i => (i, 1))).map Prod.fst).Nodup := by
    rw [List.map_map]
    exact List.Nodup.map (fun a b hab => hab) (List.nodup_range n)
  have hbnd : ∀ p ∈ (List.range n).map (fun i => (i, 1)), p.1 < n := by
    intro p hp
    rcases List.mem_map.mp hp with ⟨i, hi, rfl⟩
    exact List.mem_range.mp hi
  have h := linkGo_wf meth n d ((List.range n).map (fun i => (i, (1 : ℕ)))) n hnd hbnd
  constructor
  · intro m hm
    obtain ⟨h1, h2, h3, -, -⟩ := h.1 m hm
    exact ⟨h1, h2, h3⟩
  · intro m m' hm hm' hlt
    exact h.2 m m' hlt hm'

/-! ### C5 machinery, part 4: selection-size formula and search monotonicity -/

theorem length_filter_range (p : ℕ → Bool) :
    ∀ n : ℕ, ((List.range n).filter p).length
      = ((Finset.range n).filter (fun i => p i = true)).card := by
  intro n
  induction n with
  | zero => rfl
  | succ k ih =>
      rw [List.range_succ, List.filter_append, List.length_append, ih, Finset.range_succ,
        Finset.filter_insert]
      have hk : k ∉ (Finset.range k).filter (fun i => p i = true) := by
        intro hmem
        exact absurd (Finset.mem_filter.mp hmem).1 (by simp)
      by_cases hp : p k = true
      · rw [if_pos hp, Finset.card_insert_of_not_mem hk]
        simp [List.filter, hp]
      · rw [if_neg hp]
        simp [List.filter, hp]

theorem argminGo_bound : ∀ (l : List DVal) (cur : DVal) (best pos : ℕ),
    argminGo l cur best pos = best
    ∨ (pos ≤ argminGo l cur best pos ∧ argminGo l cur best pos < pos + l.length) := by
  intro l
  induction l with
  | nil => intro cur best pos; exact Or.inl rfl
  | cons v rest ih =>
      intro cur best pos
      have he : argminGo (v :: rest) cur best pos
          = if dge v cur then argminGo rest cur best (pos + 1)
            else if v.isNaN then pos else argminGo rest v pos (pos + 1) := rfl
      rw [he]
      by_cases h1 : dge v cur
      · rw [if_pos h1]
        rcases ih cur best (pos + 1) with h | h
        · exact Or.inl h
        · refine Or.inr ⟨by omega, ?_⟩
          simp only [List.length_cons]
          omega
      · rw [if_neg h1]
        by_cases h2 : v.isNaN
        · rw [if_pos h2]
          refine Or.inr ⟨le_refl _, ?_⟩
          simp only [List.length_cons]
          omega
        · rw [if_neg h2]
          rcases ih v pos (pos + 1) with h | h
          · refine Or.inr ⟨by omega, ?_⟩
            simp only [List.length_cons]
            omega
          · refine Or.inr ⟨by omega, ?_⟩
            simp only [List.length_cons]
            omega

theorem argminD_lt {l : List DVal} (h : l ≠ []) : argminD l < l.length := by
  cases l with
  | nil => exact absurd rfl h
  | cons v rest =>
      have he : argminD (v :: rest) = if v.isNaN then 0 else argminGo rest v 0 1 := rfl
      rw [he]
      by_cases h1 : v.isNaN
      · rw [if_pos h1]
        simp
      · rw [if_neg h1]
        rcases argminGo_bound rest v 0 1 with h2 | h2
        · rw [h2]
          simp
        · simp only [List.length_cons]
          omega

theorem medoidIndex_mem (M : Mat) : ∀ {mem : List ℕ}, mem ≠ [] → medoidIndex M mem ∈ mem := by
  intro mem h
  match mem with
  | [] => exact absurd rfl h
  | [x] => exact List.mem_singleton.mpr rfl
  | x :: y :: ys =>
      have he : medoidIndex M (x :: y :: ys)
          = (x :: y :: ys).getD
              (argminD ((x :: y :: ys).map (rowSumD M (x :: y :: ys)))) 0 := rfl
      rw [he]
      have hlt : argminD ((x :: y :: ys).map (rowSumD M (x :: y :: ys)))
          < (x :: y :: ys).length := by
        have := argminD_lt (l := (x :: y :: ys).map (rowSumD M (x :: y :: ys))) (by simp)
        simpa using this
      rw [List.getD_eq_getElem _ _ hlt]
      exact List.getElem_mem _

theorem firstFeasible_mem {f : ℚ → ℕ} {target : ℤ} :
    ∀ {cands : List ℚ} {c : ℚ}, firstFeasible f target cands = some c
      → c ∈ cands ∧ (f c : ℤ) ≤ target := by
  intro cands
  induction cands with
  | nil => intro c h; cases h
  | cons a rest ih =>
      intro c h
      have he : firstFeasible f target (a :: rest)
          = if (f a : ℤ) ≤ target then some a else firstFeasible f target rest := rfl
      rw [he] at h
      by_cases h1 : (f a : ℤ) ≤ target
      · rw [if_pos h1] at h
        cases h
        exact ⟨List.mem_cons_self _ _, h1⟩
      · rw [if_neg h1] at h
        obtain ⟨h2, h3⟩ := ih h
        exact ⟨List.mem_cons_of_mem _ h2, h3⟩

theorem chosenThreshold_mem (f : ℚ → ℕ) (target : ℤ) {cands : List ℚ} (h : cands ≠ []) :
    chosenThreshold f target cands ∈ cands := by
  rcases hff : firstFeasible f target cands with _ | c
  · rw [chosenThreshold_of_none hff, List.getLast?_eq_getLast cands h, Option.getD_some]
    exact List.getLast_mem h
  · rw [chosenThreshold_of_some hff]
    exact (firstFeasible_mem hff).1

theorem search_monotone (f : ℚ → ℕ) (T1 T2 : ℤ) (h12 : T1 ≤ T2)
    (hf : ∀ t t' : ℚ, t ≤ t' → f t' ≤ f t) :
    ∀ cands : List ℚ, cands.Sorted (· ≤ ·) →
      f (chosenThreshold f T1 cands) ≤ f (chosenThreshold f T2 cands) := by
  intro cands
  induction cands with
  | nil => intro _; exact le_refl _
  | cons c rest ih =>
      intro hs
      rw [List.sorted_cons] at hs
      have he1 : firstFeasible f T1 (c :: rest)
          = if (f c : ℤ) ≤ T1 then some c else firstFeasible f T1 rest := rfl
      have he2 : firstFeasible f T2 (c :: rest)
          = if (f c : ℤ) ≤ T2 then some c else firstFeasible f T2 rest := rfl
      by_cases h1 : (f c : ℤ) ≤ T1
      · have h2 : (f c : ℤ) ≤ T2 := le_trans h1 h12
        rw [chosenThreshold_of_some (he1.trans (if_pos h1)),
          chosenThreshold_of_some (he2.trans (if_pos h2))]
      · by_cases h2 : (f c : ℤ) ≤ T2
        · rw [chosenThreshold_of_some (he2.trans (if_pos h2))]
          have hmem : chosenThreshold f T1 (c :: rest) ∈ c :: rest :=
            chosenThreshold_mem f T1 (by simp)
          have hcle : c ≤ chosenThreshold f T1 (c :: rest) := by
            rcases List.mem_cons.mp hmem with he | he
            · rw [he]
            · exact hs.1 _ he
          exact hf c _ hcle
        · rcases rest with _ | ⟨r, rs⟩
          · have hn1 : firstFeasible f T1 [c] = none := he1.trans (if_neg h1)
            have hn2 : firstFeasible f T2 [c] = none := he2.trans (if_neg h2)
            rw [chosenThreshold_of_none hn1, chosenThreshold_of_none hn2]
          · have htail : ∀ T : ℤ, ¬ ((f c : ℤ) ≤ T) →
                chosenThreshold f T (c :: r :: rs) = chosenThreshold f T (r :: rs) := by
              intro T hT
              have heT : firstFeasible f T (c :: r :: rs)
                  = if (f c : ℤ) ≤ T then some c else firstFeasible f T (r :: rs) := rfl
              rcases hff : firstFeasible f T (r :: rs) with _ | c'
              · rw [chosenThreshold_of_none ((heT.trans (if_neg hT)).trans hff),
                  chosenThreshold_of_none hff, List.getLast?_cons_cons]
              · rw [chosenThreshold_of_some ((heT.trans (if_neg hT)).trans hff),
                  chosenThreshold_of_some hff]
            rw [htail T1 h1, htail T2 h2]
            exact ih hs.2

theorem keptOf_neg {M : Mat} {required : ℕ → Bool} {mem : List ℕ}
    (h : mem.filter required = []) :
    keptOf M required mem = [medoidIndex M mem] := by
  have he : keptOf M required mem
      = if (mem.filter required).isEmpty then [medoidIndex M mem]
        else mem.filter required := rfl
  rw [he, h]
  rfl

theorem keptOf_pos {M : Mat} {required : ℕ → Bool} {mem : List ℕ}
    (h : mem.filter required ≠ []) :
    keptOf M required mem = mem.filter required := by
  have he : keptOf M required mem
      = if (mem.filter required).isEmpty then [medoidIndex M mem]
        else mem.filter required := rfl
  rcases hm : mem.filter required with _ | ⟨a, l⟩
  · exact absurd hm h
  · rw [he, hm]
    rfl

theorem mem_fiberL {n : ℕ} {L : ℕ → ℕ} {c i : ℕ} :
    i ∈ fiberL n L c ↔ i < n ∧ L i = c := by
  simp [fiberL, List.mem_filter]

theorem dedup_mem_iff_used {n : ℕ} {L : ℕ → ℕ} {c : ℕ} :
    c ∈ ((List.range n).map L).dedup ↔ c ∈ usedLabels n L := by
  rw [List.mem_dedup]
  simp [usedLabels, Finset.mem_image, List.mem_map]

theorem fiberL_ne_nil {n : ℕ} {L : ℕ → ℕ} {c : ℕ} (h : c ∈ usedLabels n L) :
    fiberL n L c ≠ [] := by
  rcases Finset.mem_image.mp h with ⟨j, hj, rfl⟩
  exact List.ne_nil_of_mem (mem_fiberL.mpr ⟨Finset.mem_range.mp hj, rfl⟩)

theorem medoid_mem_fiber (M : Mat) {n : ℕ} {L : ℕ → ℕ} {c : ℕ} (h : c ∈ usedLabels n L) :
    medoidIndex M (fiberL n L c) ∈ fiberL n L c :=
  medoidIndex_mem M (fiberL_ne_nil h)

theorem clustersOf_eq (n : ℕ) (L : ℕ → ℕ) :
    clustersOf n L = (((List.range n).map L).dedup).map (fun c => (c, fiberL n L c)) := rfl

theorem mem_keptAll {n : ℕ} {L : ℕ → ℕ} {M : Mat} {required : ℕ → Bool} {i : ℕ} :
    i ∈ keptAll n L M required
      ↔ ∃ c ∈ ((List.range n).map L).dedup, i ∈ keptOf M required (fiberL n L c) := by
  unfold keptAll
  rw [clustersOf_eq, List.mem_flatten]
  constructor
  · rintro ⟨s, hs, hi⟩
    rcases List.mem_map.mp hs with ⟨q, hq, rfl⟩
    rcases List.mem_map.mp hq with ⟨c, hc, rfl⟩
    exact ⟨c, hc, hi⟩
  · rintro ⟨c, hc, hi⟩
    refine ⟨keptOf M required (fiberL n L c), ?_, hi⟩
    exact List.mem_map.mpr ⟨(c, fiberL n L c), List.mem_map.mpr ⟨c, hc, rfl⟩, rfl⟩

theorem selIndices_length (n : ℕ) (L : ℕ → ℕ) (M : Mat) (required : ℕ → Bool) :
    (selIndices n L M required).length
      = ((Finset.range n).filter (fun i => required i = true)).card
        + (reqFreeLabels n L required).card := by
  classical
  have hdisj : Disjoint ((Finset.range n).filter (fun i => required i = true))
      ((reqFreeLabels n L required).image (fun c => medoidIndex M (fiberL n L c))) := by
    rw [Finset.disjoint_left]
    intro i hi him
    rcases Finset.mem_image.mp him with ⟨c, hc, hmed⟩
    have hcu : c ∈ usedLabels n L := (Finset.mem_filter.mp hc).1
    have hifib : i ∈ fiberL n L c := by
      rw [← hmed]
      exact medoid_mem_fiber M hcu
    have hif := mem_fiberL.mp hifib
    have hreqf := (Finset.mem_filter.mp hc).2 i (Finset.mem_range.mpr hif.1) hif.2
    have hit := (Finset.mem_filter.mp hi).2
    rw [hreqf] at hit
    cases hit
  have hinj : Set.InjOn (fun c => medoidIndex M (fiberL n L c))
      ↑(reqFreeLabels n L required) := by
    intro c₁ h₁ c₂ h₂ he
    have he' : medoidIndex M (fiberL n L c₁) = medoidIndex M (fiberL n L c₂) := he
    have hcu₁ : c₁ ∈ usedLabels n L := (Finset.mem_filter.mp (Finset.mem_coe.mp h₁)).1
    have hcu₂ : c₂ ∈ usedLabels n L := (Finset.mem_filter.mp (Finset.mem_coe.mp h₂)).1
    have hm₁ := mem_fiberL.mp (medoid_mem_fiber M hcu₁)
    have hm₂ := mem_fiberL.mp (medoid_mem_fiber M hcu₂)
    rw [← hm₁.2, ← hm₂.2, he']
  have hlen : (selIndices n L M required).length
      = ((Finset.range n).filter
          (fun i => (keptAll n L M required).contains i = true)).card := by
    unfold selIndices
    exact length_filter_range _ n
  have hset : (Finset.range n).filter (fun i => (keptAll n L M required).contains i = true)
      = ((Finset.range n).filter (fun i => required i = true))
        ∪ (reqFreeLabels n L required).image (fun c => medoidIndex M (fiberL n L c)) := by
    ext i
    simp only [Finset.mem_filter, Finset.mem_union, Finset.mem_image, Finset.mem_range]
    constructor
    · rintro ⟨hin, hk⟩
      rcases mem_keptAll.mp (contains_iff_mem.mp hk) with ⟨c, hc, hkept⟩
      by_cases hreq : (fiberL n L c).filter required = []
      · rw [keptOf_neg hreq] at hkept
        rcases List.mem_singleton.mp hkept with rfl
        refine Or.inr ⟨c, Finset.mem_filter.mpr ⟨dedup_mem_iff_used.mp hc, ?_⟩, rfl⟩
        intro k hkr hLk
        have hfalse := List.filter_eq_nil_iff.mp hreq k
          (mem_fiberL.mpr ⟨Finset.mem_range.mp hkr, hLk⟩)
        cases hb : required k with
        | false => rfl
        | true => exact absurd hb hfalse
      · rw [keptOf_pos hreq] at hkept
        exact Or.inl ⟨hin, (List.mem_filter.mp hkept).2⟩
    · rintro (⟨hin, hreqi⟩ | ⟨c, hc, hmed⟩)
      · refine ⟨hin, contains_iff_mem.mpr (mem_keptAll.mpr ⟨L i, ?_, ?_⟩)⟩
        · exact dedup_mem_iff_used.mpr (Finset.mem_image.mpr ⟨i, Finset.mem_range.mpr hin, rfl⟩)
        · have hifib : i ∈ fiberL n L (L i) := mem_fiberL.mpr ⟨hin, rfl⟩
          have hne : (fiberL n L (L i)).filter required ≠ [] :=
            List.ne_nil_of_mem (List.mem_filter.mpr ⟨hifib, hreqi⟩)
          rw [keptOf_pos hne]
          exact List.mem_filter.mpr ⟨hifib, hreqi⟩
      · have hcu : c ∈ usedLabels n L := (Finset.mem_filter.mp hc).1
        have hmfib := mem_fiberL.mp (medoid_mem_fiber M hcu)
        refine ⟨by rw [← hmed]; exact hmfib.1, ?_⟩
        refine contains_iff_mem.mpr (mem_keptAll.mpr ⟨c, dedup_mem_iff_used.mpr hcu, ?_⟩)
        have hreq : (fiberL n L c).filter required = [] := by
          rw [List.filter_eq_nil_iff]
          intro k hk hkt
          have hkf := mem_fiberL.mp hk
          have hkfalse := (Finset.mem_filter.mp hc).2 k (Finset.mem_range.mpr hkf.1) hkf.2
          rw [hkfalse] at hkt
          cases hkt
        rw [keptOf_neg hreq, ← hmed]
        exact List.mem_singleton.mpr rfl
  rw [hlen, hset, Finset.card_union_of_disjoint hdisj, Finset.card_image_of_injOn hinj]

theorem reqFree_card_le (n : ℕ) (L L' : ℕ → ℕ) (required : ℕ → Bool)
    (href : ∀ i j, i < n → j < n → L i = L j → L' i = L' j) :
    (reqFreeLabels n L' required).card ≤ (reqFreeLabels n L required).card := by
  classical
  have hwit : ∀ c' ∈ reqFreeLabels n L' required,
      ((Finset.range n).filter (fun i => L' i = c')).Nonempty := by
    intro c' hc'
    have hcu := (Finset.mem_filter.mp hc').1
    rcases Finset.mem_image.mp hcu with ⟨j, hj, rfl⟩
    exact ⟨j, Finset.mem_filter.mpr ⟨hj, rfl⟩⟩
  refine Finset.card_le_card_of_injOn
    (fun c' => if h : ((Finset.range n).filter (fun i => L' i = c')).Nonempty
      then L (((Finset.range n).filter (fun i => L' i = c')).min' h) else 0) ?_ ?_
  · intro c' hc'
    have hS := hwit c' hc'
    show (if h : ((Finset.range n).filter (fun i => L' i = c')).Nonempty
        then L (((Finset.range n).filter (fun i => L' i = c')).min' h) else 0)
        ∈ reqFreeLabels n L required
    rw [dif_pos hS]
    have hj := Finset.mem_filter.mp (Finset.min'_mem _ hS)
    have hjn : ((Finset.range n).filter (fun i => L' i = c')).min' hS < n :=
      Finset.mem_range.mp hj.1
    refine Finset.mem_filter.mpr ⟨Finset.mem_image.mpr ⟨_, hj.1, rfl⟩, ?_⟩
    intro k hkr hLk
    have hk' : L' k = c' := by
      rw [← hj.2]
      exact href k _ (Finset.mem_range.mp hkr) hjn hLk
    exact (Finset.mem_filter.mp hc').2 k hkr hk'
  · intro c₁ h₁ c₂ h₂ he
    have hS₁ := hwit c₁ (Finset.mem_coe.mp h₁)
    have hS₂ := hwit c₂ (Finset.mem_coe.mp h₂)
    have he' : L (((Finset.range n).filter (fun i => L' i = c₁)).min' hS₁)
        = L (((Finset.range n).filter (fun i => L' i = c₂)).min' hS₂) := by
      have e1 : (if h : ((Finset.range n).filter (fun i => L' i = c₁)).Nonempty
          then L (((Finset.range n).filter (fun i => L' i = c₁)).min' h) else 0)
          = L (((Finset.range n).filter (fun i => L' i = c₁)).min' hS₁) := dif_pos hS₁
      have e2 : (if h : ((Finset.range n).filter (fun i => L' i = c₂)).Nonempty
          then L (((Finset.range n).filter (fun i => L' i = c₂)).min' h) else 0)
          = L (((Finset.range n).filter (fun i => L' i = c₂)).min' hS₂) := dif_pos hS₂
      rw [← e1, ← e2]
      exact he
    have hm₁ := Finset.mem_filter.mp (Finset.min'_mem _ hS₁)
    have hm₂ := Finset.mem_filter.mp (Finset.min'_mem _ hS₂)
    rw [← hm₁.2, ← hm₂.2]
    exact href _ _ (Finset.mem_range.mp hm₁.1) (Finset.mem_range.mp hm₂.1) he'

theorem selSize_antitone (names : List String) (M : Mat) (required : ℕ → Bool)
    (meth : LinkMethod) {t t' : ℚ} (htt : t ≤ t') :
    (selectAtThreshold (linkage meth names.length (symQ M)) t' names M required).1.length
      ≤ (selectAtThreshold (linkage meth names.length (symQ M)) t names M required).1.length := by
  have e1 : (selectAtThreshold (linkage meth names.length (symQ M)) t names M required).1
      = selIndices names.length
          (cutLabels names.length (linkage meth names.length (symQ M)) t) M required := rfl
  have e2 : (selectAtThreshold (linkage meth names.length (symQ M)) t' names M required).1
      = selIndices names.length
          (cutLabels names.length (linkage meth names.length (symQ M)) t') M required := rfl
  rw [e1, e2, selIndices_length, selIndices_length]
  refine Nat.add_le_add_left ?_ _
  refine reqFree_card_le _ _ _ _ ?_
  intro i j hi hj hL
  exact cutLabels_refine (linkage_wf meth names.length (symQ M)) htt hi hj hL

theorem candidateList_sorted (M : Mat) (n : ℕ) :
    (candidateList M n none).Sorted (· ≤ ·) := by
  have he : candidateList M n none
      = (if sortedUnique (posVals (condensedList M n)) = [] then [(0 : ℚ)]
          else sortedUnique (posVals (condensedList M n)))
        ++ [qmax (if sortedUnique (posVals (condensedList M n)) = [] then [(0 : ℚ)]
          else sortedUnique (posVals (condensedList M n))) + 1 / 1000000] := rfl
  rw [he]
  show List.Pairwise (· ≤ ·)
      ((if sortedUnique (posVals (condensedList M n)) = [] then [(0 : ℚ)]
          else sortedUnique (posVals (condensedList M n)))
        ++ [qmax (if sortedUnique (posVals (condensedList M n)) = [] then [(0 : ℚ)]
          else sortedUnique (posVals (condensedList M n))) + 1 / 1000000])
  rw [List.pairwise_append]
  refine ⟨?_, List.pairwise_singleton _ _, ?_⟩
  · split
    · exact List.pairwise_singleton _ _
    · exact List.sorted_insertionSort _ _
  · intro a ha b hb
    rcases List.mem_singleton.mp hb with rfl
    have h1 : a ≤ qmax (if sortedUnique (posVals (condensedList M n)) = [] then [(0 : ℚ)]
        else sortedUnique (posVals (condensedList M n))) := le_qmax ha
    have h2 : (0 : ℚ) < 1 / 1000000 := by norm_num
    linarith

/-- C5: the spec's inequality is reversed.  A larger target ceiling makes the
threshold scan stop at an earlier (smaller) candidate, which cuts the
dendrogram into more clusters and so retains at least as many items — the
selection size for the smaller target is the one bounded by the selection size
for the larger target.  Concretely, on the 3-point matrix `Mex3` with
distances d(0,1) = 1 and d(0,2) = d(1,2) = 3, target 1 selects one item while
target 2 selects two, violating the claimed direction. -/
theorem C5_counterexample :
    selLen (runMain ["a", "b", "c"] Mex3 [] "P" 1 .average none) = 1
    ∧ selLen (runMain ["a", "b", "c"] Mex3 [] "P" 2 .average none) = 2
    ∧ ¬ (selLen (runMain ["a", "b", "c"] Mex3 [] "P" 2 .average none)
          ≤ selLen (runMain ["a", "b", "c"] Mex3 [] "P" 1 .average none)) := by
  refine ⟨?_, ?_, ?_⟩ <;> with_unfolding_all decide

/-- C5 (corrected direction): for a fixed matrix, metadata, priority label and
linkage strategy, with no caller-supplied `max_threshold`, a successful run at
a smaller target ceiling selects at most as many items as the run at a larger
target ceiling: the selection size is monotone non-decreasing in the target.
(The candidate list is ascending exactly when `max_threshold` is absent, and
the selection size of a cut is antitone in the threshold, so the first-feasible
scan stops no later for the larger target.) -/
theorem C5_target_monotonicity (names : List String) (M : Mat)
    (meta : List (String × String)) (p : String) (T1 T2 : ℤ) (meth : LinkMethod)
    (h12 : T1 ≤ T2) (hok : (runMain names M meta p T1 meth none).isOk = true) :
    selLen (runMain names M meta p T1 meth none)
      ≤ selLen (runMain names M meta p T2 meth none) := by
  by_cases h1 : (reqCount names meta p : ℤ) > T1
  · exfalso
    have hbad : runMain names M meta p T1 meth none = Except.error MainError.infeasible := by
      unfold runMain
      rw [if_pos h1]
    rw [hbad] at hok
    exact Bool.noConfusion hok
  · by_cases h2 : (condensedList M names.length).any DVal.isNaN = true
    · exfalso
      have hbad : runMain names M meta p T1 meth none = Except.error MainError.dataError := by
        unfold runMain
        rw [if_neg h1, if_pos h2]
      rw [hbad] at hok
      exact Bool.noConfusion hok
    · have h1' : ¬ ((reqCount names meta p : ℤ) > T2) := by omega
      have e1 : runMain names M meta p T1 meth none
          = Except.ok (runBody names M meta p T1 meth none) := by
        unfold runMain
        rw [if_neg h1, if_neg h2]
      have e2 : runMain names M meta p T2 meth none
          = Except.ok (runBody names M meta p T2 meth none) := by
        unfold runMain
        rw [if_neg h1', if_neg h2]
      rw [e1, e2]
      have eb : ∀ T : ℤ, selLen (Except.ok (runBody names M meta p T meth none))
          = (fun c => (selectAtThreshold (linkage meth names.length (symQ M)) c names M
              (requiredB names meta p)).1.length)
            (chosenThreshold
              (fun c => (selectAtThreshold (linkage meth names.length (symQ M)) c names M
                (requiredB names meta p)).1.length)
              T (candidateList M names.length none)) := fun T => rfl
      rw [eb T1, eb T2]
      exact search_monotone _ T1 T2 h12
        (fun t t' htt => selSize_antitone names M (requiredB names meta p) meth htt)
        (candidateList M names.length none) (candidateList_sorted M names.length)

/-- Witness for C5: a concrete feasible run of the 3-point example at targets
1 and 2 with the hypotheses discharged. -/
theorem C5_target_monotonicity_witness :
    (1 : ℤ) ≤ 2
    ∧ (runMain ["a", "b", "c"] Mex3 [] "P" 1 .average none).isOk = true
    ∧ selLen (runMain ["a", "b", "c"] Mex3 [] "P" 1 .average none)
        ≤ selLen (runMain ["a", "b", "c"] Mex3 [] "P" 2 .average none) :=
  ⟨by decide, by with_unfolding_all decide,
    C5_target_monotonicity ["a", "b", "c"] Mex3 [] "P" 1 2 .average (by decide)
      (by with_unfolding_all decide)⟩
